import Mathlib

/-!
# redis_rate: the limiter of `rate.go`

A shallow embedding of `rate.go` (package `redis_rate`) and the properties of
its two limiting modes.

* `int64` and `time.Duration` values are mathematical integers; every
  arithmetic step of the source that can leave the 64-bit range is wrapped by
  `wrap64`.
* `time.Now()` is an explicit argument: `utime` is the reading of
  `time.Now().Unix()` (seconds), `now` the reading of `time.Now().UnixNano()`.
* A run-time panic (integer division by zero) is the result `none`.
* `rate.Limit` is a `float64` in the source; it is taken here as the exact
  rational number of events per second it stands for, plus the constant
  `rate.Inf`. The one floating-point operation of the source, the quotient
  `1 / rl` of `limitPeriod`, is rounded to the nearest `float64`.
* The shared store and the fallback limiter are collaborators of the source,
  modelled from the specification.
-/

namespace RedisRate

/-! ## Machine integers and durations -/

/-- Smallest `int64`. -/
def minInt64 : Int := -9223372036854775808

/-- Largest `int64`. -/
def maxInt64 : Int := 9223372036854775807

/-- Two's-complement wrap of an integer into the `int64` range. -/
def wrap64 (x : Int) : Int :=
  (x + 9223372036854775808) % 18446744073709551616 - 9223372036854775808

/-- Go's `a / b` on `int64`: the quotient truncated toward zero, `none` being the
run-time panic "integer divide by zero". -/
def goDiv (a b : Int) : Option Int :=
  if b = 0 then none else some (wrap64 (Int.tdiv a b))

/-- Go's `time.Second`, in nanoseconds. -/
def Second : Int := 1000000000

/-- Go's `time.Minute`. -/
def Minute : Int := 60 * Second

/-- Go's `time.Hour`. -/
def Hour : Int := 60 * Minute

/-- Conversion of a (rational) float to `int64`, as in `int64(rl)` and
`time.Duration(1 / rl)`: the fractional part is discarded. Outside the `int64`
range Go leaves the result to the implementation; the value taken here is the
one of amd64. -/
def int64OfRat (q : ℚ) : Int :=
  let t := Int.tdiv q.num q.den
  if minInt64 ≤ t ∧ t ≤ maxInt64 then t else minInt64

/-- Number of binary digits of `n`, with `fuel` at least that number. -/
def bitLength : Nat → Nat → Nat
  | 0, _ => 0
  | fuel + 1, n => if n = 0 then 0 else bitLength fuel (n / 2) + 1

/-- The binary exponent of a positive rational `x`, the integer `e` with
`2 ^ e ≤ x < 2 ^ (e + 1)`; from 1 on it is read off the binary digits of the
integer part. -/
def binaryExponent (x : ℚ) : Int :=
  if 1 ≤ x then (bitLength ⌊x⌋₊ ⌊x⌋₊ : Int) - 1 else Int.log 2 x

/-- Rounding of a rational to the nearest `float64` (IEEE 754 binary64: 53
significant bits, ties to the even significand, smallest exponent -1022), as
Go's `float64` division rounds its exact quotient. A value beyond the largest
`float64`, which Go makes infinite, is left as the rounded rational: the
conversion to `int64` treats both as out of range. -/
def roundFloat64 (x : ℚ) : ℚ :=
  if x = 0 then 0
  else
    let e : Int := max (binaryExponent |x|) (-1022)
    let ulp : ℚ := 2 ^ (e - 52)
    let m : ℚ := |x| / ulp
    let f : Int := ⌊m⌋
    let n : Int :=
      if m - f < 1 / 2 then f
      else if 1 / 2 < m - f then f + 1
      else if f % 2 = 0 then f else f + 1
    (if x < 0 then -1 else 1) * n * ulp

/-! ## Keys -/

/-- The constant `redisPrefix`. -/
def redisPrefix : String := "rate"

/-- Source `allowName`: `fmt.Sprintf("%s:%s-%d", redisPrefix, name, slot)`. -/
def allowName (name : String) (slot : Int) : String :=
  redisPrefix ++ ":" ++ name ++ "-" ++ toString slot

/-- Source `allowRateName`:
`fmt.Sprintf("%s:%s-%d-%d", redisPrefix, name, period, slot)`. -/
def allowRateName (name : String) (period slot : Int) : String :=
  redisPrefix ++ ":" ++ name ++ "-" ++ toString period ++ "-" ++ toString slot

/-! ## The shared counter store -/

/-- A counter record of the store: `{key → integer count, expiry}`. -/
structure Entry where
  count : Int
  ttl : Int
deriving DecidableEq, Repr

/-- Modelled from the spec: the shared counter store behind the `rediser`
interface (the Redis client is a collaborator, not part of `rate.go`). It maps
keys to counter records; `up = false` is the unreachable store, whose calls
fail with a transport error and change nothing. -/
structure Store where
  up : Bool
  data : String → Option Entry

/-- The error value of a failed store call. -/
inductive StoreError where
  | unavailable
deriving DecidableEq, Repr

/-- The integer held at `key`, an absent key counting as 0. -/
def Store.counter (s : Store) (key : String) : Int :=
  match s.data key with
  | some e => e.count
  | none => 0

/-- Modelled from the spec: `increment-and-expire(key, delta, ttl) → new_count`,
the pipeline `IncrBy(key, n); Expire(key, ttl)` submitted by `incr`. The
result is the pair of the value carried by the `IncrBy` command (0 when the
pipeline failed) and the pipeline's error. -/
def Store.Pipelined (s : Store) (key : String) (n ttl : Int) :
    (Int × Option StoreError) × Store :=
  if s.up then
    let v := s.counter key + n
    ((v, none),
      { s with data := fun k => if k = key then some { count := v, ttl := ttl } else s.data k })
  else ((0, some StoreError.unavailable), s)

/-- Modelled from the spec: `delete(key) → success/error`. -/
def Store.Del (s : Store) (key : String) : Option StoreError × Store :=
  if s.up then (none, { s with data := fun k => if k = key then none else s.data k })
  else (some StoreError.unavailable, s)

/-! ## The fallback limiter -/

/-- Modelled from the spec: the in-process fallback limiter (`rate.Limiter` of
`golang.org/x/time/rate`, a collaborator), a token bucket exposing
`allow() → boolean`. One token is earned every `every` nanoseconds, at most
`burst` tokens are kept; `credit` is the time credit held, in nanoseconds. -/
structure FallbackLimiter where
  every : Int
  burst : Int
  credit : Int
deriving DecidableEq, Repr

/-- A fresh bucket (`rate.NewLimiter(rate.Every(every), burst)`) starts full. -/
def NewFallback (every burst : Int) : FallbackLimiter :=
  { every := every, burst := burst, credit := burst * every }

/-- The query `allow()`: takes one token when one is available. -/
def FallbackLimiter.Allow (f : FallbackLimiter) : Bool × FallbackLimiter :=
  if f.every ≤ f.credit then (true, { f with credit := f.credit - f.every })
  else (false, f)

/-- Passage of `elapsed` nanoseconds between two queries. -/
def FallbackLimiter.advance (f : FallbackLimiter) (elapsed : Int) : FallbackLimiter :=
  { f with credit := min (f.burst * f.every) (f.credit + elapsed) }

/-! ## The limiter -/

/-- Source `Limiter`: the store client and the optional fallback limiter. -/
structure Limiter where
  redis : Store
  Fallback : Option FallbackLimiter

/-- Source `NewLimiter`. -/
def NewLimiter (redis : Store) : Limiter :=
  { redis := redis, Fallback := none }

/-- The results `(count, delay, allow)` of `AllowN`. -/
structure AllowResult where
  count : Int
  delay : Int
  allow : Bool
deriving DecidableEq, Repr

/-- The results `(delay, allow)` of `AllowRate`. -/
structure RateResult where
  delay : Int
  allow : Bool
deriving DecidableEq, Repr

/-- A finite `rate.Limit` (events per second) or `rate.Inf`. -/
inductive Limit where
  | finite (q : ℚ)
  | Inf

/-- Source `Limiter.incr`: `IncrBy(name, n)` and `Expire(name, period + 30s)` in
one pipeline; returns the command's value and the pipeline's error. -/
def Limiter.incr (l : Limiter) (name : String) (period n : Int) :
    (Int × Option StoreError) × Store :=
  l.redis.Pipelined name n (wrap64 (period + wrap64 (30 * Second)))

/-- Source `limitPeriod`. The quotient `1 / rl` is a `float64` division: the exact
quotient rounded to the nearest `float64`. -/
def limitPeriod (rl : ℚ) : Int × Int :=
  if rl < 1 then (1, wrap64 (Second * int64OfRat (roundFloat64 (1 / rl))))
  else (int64OfRat rl, Second)

/-- Source `Limiter.Reset`, at the clock reading `utime` (Unix seconds). -/
def Limiter.Reset (l : Limiter) (utime : Int) (name : String) (period : Int) :
    Option (Option StoreError × Limiter) :=
  let secs := Int.tdiv period Second
  match goDiv utime secs with
  | none => none
  | some slot =>
    let r := l.redis.Del (allowName name slot)
    some (r.1, { l with redis := r.2 })

/-- Source `Limiter.ResetRate`, at the clock reading `now` (Unix nanoseconds). -/
def Limiter.ResetRate (l : Limiter) (now : Int) (name : String) (rateLimit : Limit) :
    Option (Option StoreError × Limiter) :=
  match rateLimit with
  | Limit.Inf => some (none, l)
  | Limit.finite q =>
    if q = 0 then some (none, l)
    else
      let period := (limitPeriod q).2
      match goDiv now period with
      | none => none
      | some slot =>
        let r := l.redis.Del (allowRateName name period slot)
        some (r.1, { l with redis := r.2 })

/-- Source `Limiter.AllowN`, at the clock reading `utime` (Unix seconds). The
fallback is queried before the store call; its verdict stands only when the
store call fails. -/
def Limiter.AllowN (l : Limiter) (utime : Int) (name : String) (maxn period n : Int) :
    Option (AllowResult × Limiter) :=
  let secs := Int.tdiv period Second
  match goDiv utime secs with
  | none => none
  | some slot =>
    let delay := wrap64 (wrap64 (wrap64 (wrap64 (slot + 1) * secs) - utime) * Second)
    let fb : Bool × Option FallbackLimiter :=
      match l.Fallback with
      | some f => ((f.Allow).1, some (f.Allow).2)
      | none => (false, none)
    let r := l.incr (allowName name slot) period n
    let allow := if r.1.2 = none then decide (r.1.1 ≤ maxn) else fb.1
    some ({ count := r.1.1, delay := delay, allow := allow },
      { redis := r.2, Fallback := fb.2 })

/-- Source `Limiter.Allow`: `AllowN` with `n = 1`. -/
def Limiter.Allow (l : Limiter) (utime : Int) (name : String) (maxn period : Int) :
    Option (AllowResult × Limiter) :=
  l.AllowN utime name maxn period 1

/-- Source `Limiter.AllowMinute`. -/
def Limiter.AllowMinute (l : Limiter) (utime : Int) (name : String) (maxn : Int) :
    Option (AllowResult × Limiter) :=
  l.Allow utime name maxn Minute

/-- Source `Limiter.AllowHour`. -/
def Limiter.AllowHour (l : Limiter) (utime : Int) (name : String) (maxn : Int) :
    Option (AllowResult × Limiter) :=
  l.Allow utime name maxn Hour

/-- Source `Limiter.AllowRate`, at the clock reading `now` (Unix nanoseconds).
The fallback is queried only when the store call has failed. -/
def Limiter.AllowRate (l : Limiter) (now : Int) (name : String) (rateLimit : Limit) :
    Option (RateResult × Limiter) :=
  match rateLimit with
  | Limit.Inf => some ({ delay := 0, allow := true }, l)
  | Limit.finite q =>
    if q = 0 then some ({ delay := 0, allow := false }, l)
    else
      let limit := (limitPeriod q).1
      let period := (limitPeriod q).2
      match goDiv now period with
      | none => none
      | some slot =>
        let r := l.incr (allowRateName name period slot) period 1
        let fb : Bool × Option FallbackLimiter :=
          if r.1.2 = none then (decide (r.1.1 ≤ limit), l.Fallback)
          else
            match l.Fallback with
            | some f => ((f.Allow).1, some (f.Allow).2)
            | none => (false, none)
        let delay := if fb.1 then 0 else wrap64 (wrap64 (wrap64 (slot + 1) * period) - now)
        some ({ delay := delay, allow := fb.1 }, { redis := r.2, Fallback := fb.2 })

/-- Successive `Allow` calls on one name and policy, one per clock reading, each
call starting from the limiter left by the previous one. -/
def runAllow (l : Limiter) (name : String) (maxn period : Int) :
    List Int → Option (List AllowResult × Limiter)
  | [] => some ([], l)
  | t :: ts =>
    match l.Allow t name maxn period with
    | none => none
    | some (r, l1) =>
      match runAllow l1 name maxn period ts with
      | none => none
      | some (rs, l2) => some (r :: rs, l2)

/-- Successive `AllowRate` calls on one name and rate, one per clock reading. -/
def runAllowRate (l : Limiter) (name : String) (rateLimit : Limit) :
    List Int → Option (List RateResult × Limiter)
  | [] => some ([], l)
  | t :: ts =>
    match l.AllowRate t name rateLimit with
    | none => none
    | some (r, l1) =>
      match runAllowRate l1 name rateLimit ts with
      | none => none
      | some (rs, l2) => some (r :: rs, l2)

/-- The empty, reachable store. -/
def emptyStore : Store := { up := true, data := fun _ => none }

/-- The unreachable store. -/
def downStore : Store := { up := false, data := fun _ => none }

/-- The verdict of an optional fallback limiter: `false` when none is configured. -/
def fallbackVerdict (fb : Option FallbackLimiter) : Bool :=
  match fb with
  | some f => (f.Allow).1
  | none => false

/-- The number denoted by a list of decimal digit characters, most significant
digit first. -/
def decimalValue (cs : List Char) : Nat :=
  cs.foldl (fun acc c => 10 * acc + (c.toNat - 48)) 0

/-! ## Arithmetic of `int64` -/

theorem wrap64_of_range {x : Int} (h1 : minInt64 ≤ x) (h2 : x ≤ maxInt64) : wrap64 x = x := by
  unfold wrap64
  unfold minInt64 at h1
  unfold maxInt64 at h2
  omega

theorem wrap64_add_mul (x m : Int) : wrap64 (x + 18446744073709551616 * m) = wrap64 x := by
  unfold wrap64
  omega

theorem wrap64_exists (x : Int) : ∃ k : Int, wrap64 x = x + 18446744073709551616 * k := by
  refine ⟨-((x + 9223372036854775808) / 18446744073709551616), ?_⟩
  unfold wrap64
  omega

theorem wrap64_mul_left (a b : Int) : wrap64 (wrap64 a * b) = wrap64 (a * b) := by
  obtain ⟨k, hk⟩ := wrap64_exists a
  rw [hk, show (a + 18446744073709551616 * k) * b = a * b + 18446744073709551616 * (k * b) by ring]
  exact wrap64_add_mul _ _

theorem wrap64_sub_left (a b : Int) : wrap64 (wrap64 a - b) = wrap64 (a - b) := by
  obtain ⟨k, hk⟩ := wrap64_exists a
  rw [hk, show a + 18446744073709551616 * k - b = a - b + 18446744073709551616 * k by ring]
  exact wrap64_add_mul _ _

theorem wrap64_add_left (a b : Int) : wrap64 (wrap64 a + b) = wrap64 (a + b) := by
  obtain ⟨k, hk⟩ := wrap64_exists a
  rw [hk, show a + 18446744073709551616 * k + b = a + b + 18446744073709551616 * k by ring]
  exact wrap64_add_mul _ _

/-- The truncated quotient by a positive divisor stays between the dividend and 0. -/
theorem tdiv_bounds (a b : Int) (hb : 0 < b) :
    (0 ≤ a → 0 ≤ Int.tdiv a b ∧ Int.tdiv a b ≤ a) ∧
    (a ≤ 0 → a ≤ Int.tdiv a b ∧ Int.tdiv a b ≤ 0) := by
  constructor
  · intro ha
    rw [Int.tdiv_eq_ediv ha hb.le]
    exact ⟨Int.ediv_nonneg ha hb.le, Int.ediv_le_self b ha⟩
  · intro ha
    have hn : 0 ≤ -a := by omega
    have h := Int.neg_tdiv (-a) b
    rw [neg_neg] at h
    rw [h, Int.tdiv_eq_ediv hn hb.le]
    have h1 := Int.ediv_nonneg hn hb.le
    have h2 := Int.ediv_le_self b hn
    constructor <;> omega

theorem tdiv_int64 (a b : Int) (hb : 0 < b) (h1 : minInt64 ≤ a) (h2 : a ≤ maxInt64) :
    minInt64 ≤ Int.tdiv a b ∧ Int.tdiv a b ≤ maxInt64 := by
  have h := tdiv_bounds a b hb
  unfold minInt64 at h1 ⊢
  unfold maxInt64 at h2 ⊢
  rcases le_total 0 a with ha | ha
  · have := h.1 ha
    constructor <;> omega
  · have := h.2 ha
    constructor <;> omega

/-- A period of at least one second has at least one whole second. -/
theorem secs_pos (period : Int) (h : Second ≤ period) : 1 ≤ Int.tdiv period Second := by
  have hs : (0 : Int) < Second := by decide
  have hp : 0 ≤ period := le_trans hs.le h
  rw [Int.tdiv_eq_ediv hp hs.le]
  exact (Int.le_ediv_iff_mul_le hs).2 (by simpa using h)

/-- With a non-zero divisor and an `int64` quotient, Go's division is the
truncated quotient. -/
theorem goDiv_eq (a b : Int) (hb : 0 < b) (h1 : minInt64 ≤ a) (h2 : a ≤ maxInt64) :
    goDiv a b = some (Int.tdiv a b) := by
  have h := tdiv_int64 a b hb h1 h2
  unfold goDiv
  rw [if_neg (by omega), wrap64_of_range h.1 h.2]

/-! ## The store -/

theorem Pipelined_up (s : Store) (key : String) (n ttl : Int) (hup : s.up = true) :
    s.Pipelined key n ttl =
      ((s.counter key + n, none),
        { s with data := fun k =>
            if k = key then some { count := s.counter key + n, ttl := ttl } else s.data k }) := by
  unfold Store.Pipelined
  rw [if_pos hup]

theorem Pipelined_down (s : Store) (key : String) (n ttl : Int) (hup : s.up = false) :
    s.Pipelined key n ttl = ((0, some StoreError.unavailable), s) := by
  unfold Store.Pipelined
  rw [if_neg (by simp [hup])]

/-- The result of `AllowN` once the slot is known. -/
theorem AllowN_of_slot (l : Limiter) (utime : Int) (name : String) (maxn period n slot : Int)
    (h : goDiv utime (Int.tdiv period Second) = some slot) :
    l.AllowN utime name maxn period n =
      some ({ count := (l.incr (allowName name slot) period n).1.1,
              delay := wrap64 (wrap64 (wrap64 (wrap64 (slot + 1) * Int.tdiv period Second)
                - utime) * Second),
              allow := if (l.incr (allowName name slot) period n).1.2 = none
                then decide ((l.incr (allowName name slot) period n).1.1 ≤ maxn)
                else (match l.Fallback with
                  | some f => ((f.Allow).1, some (f.Allow).2)
                  | none => (false, none)).1 },
            { redis := (l.incr (allowName name slot) period n).2,
              Fallback := (match l.Fallback with
                  | some f => ((f.Allow).1, some (f.Allow).2)
                  | none => (false, none)).2 }) := by
  unfold Limiter.AllowN
  simp only [h]

/-- C1. `AllowN` single step with a reachable store: when the counter at the key
of `(name, current slot)` holds `c` before the call (0 for an absent key), the
call returns `count = c + n` and `allow = true` exactly when `c + n ≤ maxn`;
afterwards the stored counter is `c + n`, allowed or not, no other key has
changed, and with `n = 0` the count is `c` and the counter value is unchanged. -/
theorem AllowN_single_step (l : Limiter) (utime : Int) (name : String)
    (maxn period n c : Int)
    (hperiod : Second ≤ period) (hlo : minInt64 ≤ utime) (hhi : utime ≤ maxInt64)
    (hup : l.redis.up = true)
    (hc : l.redis.counter (allowName name (Int.tdiv utime (Int.tdiv period Second))) = c) :
    ∃ r l1, l.AllowN utime name maxn period n = some (r, l1) ∧
      r.count = c + n ∧ (r.allow = true ↔ c + n ≤ maxn) ∧
      l1.redis.counter (allowName name (Int.tdiv utime (Int.tdiv period Second))) = c + n ∧
      (∀ k, k ≠ allowName name (Int.tdiv utime (Int.tdiv period Second)) →
        l1.redis.data k = l.redis.data k) ∧
      (n = 0 → r.count = c ∧
        l1.redis.counter (allowName name (Int.tdiv utime (Int.tdiv period Second))) =
          l.redis.counter (allowName name (Int.tdiv utime (Int.tdiv period Second)))) := by
  have hsecs := secs_pos period hperiod
  have hslot := goDiv_eq utime (Int.tdiv period Second) (by omega) hlo hhi
  refine ⟨_, _, AllowN_of_slot l utime name maxn period n _ hslot, ?_⟩
  have hcount : ∀ (s : Store) (key : String) (e : Entry),
      Store.counter { s with data := fun k => if k = key then some e else s.data k } key
        = e.count := by
    intro s key e
    simp [Store.counter]
  simp only [Limiter.incr, Pipelined_up _ _ _ _ hup, hc, hcount]
  refine ⟨trivial, by simp, trivial, ?_, ?_⟩
  · intro k hk
    simp [hk]
  · intro hn
    simp [hn]

/-- A concrete instance of C1: the first call of `TestAllowN`. -/
theorem AllowN_single_step_witness :
    ∃ r l1, (NewLimiter emptyStore).AllowN 1700000000 "test_allow_n" 1 Minute 1 = some (r, l1) ∧
      r.count = 0 + 1 ∧ (r.allow = true ↔ (0 : Int) + 1 ≤ 1) ∧
      l1.redis.counter (allowName "test_allow_n" (Int.tdiv 1700000000 (Int.tdiv Minute Second)))
        = 0 + 1 ∧
      (∀ k, k ≠ allowName "test_allow_n" (Int.tdiv 1700000000 (Int.tdiv Minute Second)) →
        l1.redis.data k = (NewLimiter emptyStore).redis.data k) ∧
      ((1 : Int) = 0 → r.count = 0 ∧
        l1.redis.counter (allowName "test_allow_n" (Int.tdiv 1700000000 (Int.tdiv Minute Second)))
          = (NewLimiter emptyStore).redis.counter
              (allowName "test_allow_n" (Int.tdiv 1700000000 (Int.tdiv Minute Second)))) :=
  AllowN_single_step (NewLimiter emptyStore) 1700000000 "test_allow_n" 1 Minute 1 0
    (by decide) (by decide) (by decide) rfl rfl

/-! ## Successive calls inside one window -/

/-- One `AllowN` call with a reachable store, its result written out. -/
theorem AllowN_up (l : Limiter) (utime : Int) (name : String) (maxn period n : Int)
    (hperiod : Second ≤ period) (hlo : minInt64 ≤ utime) (hhi : utime ≤ maxInt64)
    (hup : l.redis.up = true) :
    ∃ r l1, l.AllowN utime name maxn period n = some (r, l1) ∧
      r.count = l.redis.counter (allowName name (Int.tdiv utime (Int.tdiv period Second))) + n ∧
      r.allow = decide (l.redis.counter
        (allowName name (Int.tdiv utime (Int.tdiv period Second))) + n ≤ maxn) ∧
      l1.redis.up = true ∧
      l1.redis.counter (allowName name (Int.tdiv utime (Int.tdiv period Second))) =
        l.redis.counter (allowName name (Int.tdiv utime (Int.tdiv period Second))) + n := by
  have hsecs := secs_pos period hperiod
  have hslot := goDiv_eq utime (Int.tdiv period Second) (by omega) hlo hhi
  refine ⟨_, _, AllowN_of_slot l utime name maxn period n _ hslot, ?_⟩
  simp only [Limiter.incr, Pipelined_up _ _ _ _ hup]
  refine ⟨trivial, by simp, hup, ?_⟩
  simp [Store.counter]

/-- Calls of `Allow` whose clock readings share the slot `slot`, against a
reachable store: the `i`-th call (from 0) returns the count `c + i + 1`, `c` being
the counter before the first call, and is allowed exactly when that count is at
most `maxn`. -/
theorem runAllow_same_slot (name : String) (maxn period slot : Int)
    (hperiod : Second ≤ period) :
    ∀ (ts : List Int) (l : Limiter), l.redis.up = true →
      (∀ t ∈ ts, minInt64 ≤ t ∧ t ≤ maxInt64 ∧ Int.tdiv t (Int.tdiv period Second) = slot) →
      ∃ rs l1, runAllow l name maxn period ts = some (rs, l1) ∧
        rs.map (fun r => (r.count, r.allow)) =
          (List.range ts.length).map (fun (i : Nat) =>
            (l.redis.counter (allowName name slot) + (i : Int) + 1,
              decide (l.redis.counter (allowName name slot) + (i : Int) + 1 ≤ maxn))) := by
  intro ts
  induction ts with
  | nil =>
    intro l _ _
    exact ⟨[], l, rfl, rfl⟩
  | cons t ts ih =>
    intro l hup hts
    obtain ⟨hlo, hhi, hslot⟩ := hts t (List.mem_cons_self t ts)
    obtain ⟨r, l1, hcall, hcount, hallow, hup1, hctr⟩ :=
      AllowN_up l t name maxn period 1 hperiod hlo hhi hup
    rw [hslot] at hcount hallow hctr
    obtain ⟨rs, l2, hrun, hrs⟩ := ih l1 hup1 (fun u hu => hts u (List.mem_cons_of_mem t hu))
    refine ⟨r :: rs, l2, ?_, ?_⟩
    · simp only [runAllow, Limiter.Allow, hcall, hrun]
    · rw [List.map_cons, hrs, hctr, List.length_cons, List.range_succ_eq_map, List.map_cons,
        List.map_map, hcount, hallow]
      refine congrArg₂ List.cons (by simp) ?_
      apply List.map_congr_left
      intro i _
      simp only [Function.comp, Nat.succ_eq_add_one, Nat.cast_add, Nat.cast_one]
      rw [show l.redis.counter (allowName name slot) + 1 + (i : Int) + 1
        = l.redis.counter (allowName name slot) + ((i : Int) + 1) + 1 by ring]

/-- For a period of a whole number of seconds the slot of `AllowN` and `Reset` at a
non-negative clock reading is the number of the period window the reading lies in. -/
theorem slot_of_whole_period (period t : Int) (hperiod : Second ≤ period)
    (hwhole : period = Int.tdiv period Second * Second) (h0 : 0 ≤ t) :
    Int.tdiv t (Int.tdiv period Second) = Int.fdiv (t * Second) period := by
  have hsecs := secs_pos period hperiod
  have hS : (0 : Int) < Second := by decide
  rw [Int.tdiv_eq_ediv h0 (by omega), Int.fdiv_eq_ediv (t * Second) (by omega)]
  conv_rhs => rw [hwhole]
  rw [Int.mul_ediv_mul_of_pos_left _ _ hS]

/-- C2, counterexample. With the period of 1.5 s the clock readings 3 s and 4 s
lie in one period window, the third one `[3 s, 4.5 s)`, and the store holds no
counter at all; yet with the quota 1 both calls of `Allow` return count 1 and
`allow = true`: the second call counts in the key of slot 4, not of slot 3. -/
theorem Allow_window_spans_two_slots :
    Second ≤ 1500000000 ∧
    Int.fdiv (3 * Second) 1500000000 = 2 ∧ Int.fdiv (4 * Second) 1500000000 = 2 ∧
    (runAllow (NewLimiter emptyStore) "test_id" 1 1500000000 [3, 4]).map
        (fun p => (p.1.map (fun r => (r.count, r.allow)),
          p.2.redis.counter (allowName "test_id" 3), p.2.redis.counter (allowName "test_id" 4)))
      = some ([(1, true), (1, true)], 1, 1) := by
  refine ⟨by decide, by decide, by decide, ?_⟩
  simp only [runAllow, Limiter.Allow]
  rw [AllowN_of_slot _ 3 "test_id" 1 1500000000 1 3 (by decide)]
  simp only []
  rw [AllowN_of_slot _ 4 "test_id" 1 1500000000 1 4 (by decide)]
  decide

/-- C2, amended. For every name, quota `maxn ≥ 1` and period of at least one
second, with `secs` the whole seconds of the period, starting from a reachable
store with no counter for `(name, slot)`: the first `maxn` calls to `Allow` made
at clock readings that share the slot `now / secs` return `allow = true` with
counts 1, 2, ..., `maxn` in that order, and the next call in that slot returns
`allow = false` with count `maxn + 1`. When the period is a whole number of
seconds the slot of a non-negative reading is its period window
`floor(now / period)`. -/
theorem Allow_quota_in_window (l : Limiter) (name : String) (maxn period slot : Int)
    (ts : List Int)
    (hmax : 1 ≤ maxn) (hperiod : Second ≤ period) (hup : l.redis.up = true)
    (hlen : ts.length = maxn.toNat + 1)
    (hclock : ∀ t ∈ ts, minInt64 ≤ t ∧ t ≤ maxInt64)
    (hwindow : ∀ t ∈ ts, Int.tdiv t (Int.tdiv period Second) = slot)
    (hfresh : l.redis.data (allowName name slot) = none) :
    (∃ rs l1, runAllow l name maxn period ts = some (rs, l1) ∧
      rs.map (fun r => (r.count, r.allow)) =
        (List.range maxn.toNat).map (fun (i : Nat) => ((i : Int) + 1, true)) ++ [(maxn + 1, false)]) ∧
    (period = Int.tdiv period Second * Second →
      ∀ t, 0 ≤ t → Int.tdiv t (Int.tdiv period Second) = Int.fdiv (t * Second) period) := by
  refine ⟨?_, fun hwhole t h0 => slot_of_whole_period period t hperiod hwhole h0⟩
  obtain ⟨rs, l1, hrun, hrs⟩ := runAllow_same_slot name maxn period slot hperiod ts l hup
    (fun t ht => ⟨(hclock t ht).1, (hclock t ht).2, hwindow t ht⟩)
  refine ⟨rs, l1, hrun, ?_⟩
  have hc : l.redis.counter (allowName name slot) = 0 := by
    simp [Store.counter, hfresh]
  have hcast : ((maxn.toNat : Nat) : Int) = maxn := Int.toNat_of_nonneg (by omega)
  rw [hrs, hlen, hc, List.range_succ, List.map_append]
  congr 1
  · apply List.map_congr_left
    intro i hi
    have hi1 : i < maxn.toNat := List.mem_range.1 hi
    have : (i : Int) + 1 ≤ maxn := by omega
    simp [this]
  · simp [hcast]

/-- A concrete instance of the amended C2: the two calls of `TestAllow` (quota 1
per minute). -/
theorem Allow_quota_in_window_witness :
    (∃ rs l1, runAllow (NewLimiter emptyStore) "test_id" 1 Minute [1700000000, 1700000001]
        = some (rs, l1) ∧
      rs.map (fun r => (r.count, r.allow)) =
        (List.range (1 : Int).toNat).map (fun (i : Nat) => ((i : Int) + 1, true)) ++ [(1 + 1, false)]) ∧
    (Minute = Int.tdiv Minute Second * Second →
      ∀ t, 0 ≤ t → Int.tdiv t (Int.tdiv Minute Second) = Int.fdiv (t * Second) Minute) :=
  Allow_quota_in_window (NewLimiter emptyStore) "test_id" 1 Minute 28333333
    [1700000000, 1700000001] (by decide) (by decide) rfl (by decide) (by decide) (by decide) rfl

/-! ## The degraded path -/

theorem goDiv_of_ne_zero (a b : Int) (hb : b ≠ 0) : goDiv a b = some (wrap64 (Int.tdiv a b)) := by
  unfold goDiv
  rw [if_neg hb]

/-- The result of `AllowRate` for a finite non-zero rate once the slot is known. -/
theorem AllowRate_of_slot (l : Limiter) (now : Int) (name : String) (q : ℚ) (slot : Int)
    (hq : q ≠ 0) (h : goDiv now (limitPeriod q).2 = some slot) :
    l.AllowRate now name (Limit.finite q) =
      some ({ delay :=
                if (if (l.incr (allowRateName name (limitPeriod q).2 slot)
                      (limitPeriod q).2 1).1.2 = none
                    then (decide ((l.incr (allowRateName name (limitPeriod q).2 slot)
                      (limitPeriod q).2 1).1.1 ≤ (limitPeriod q).1), l.Fallback)
                    else (match l.Fallback with
                      | some f => ((f.Allow).1, some (f.Allow).2)
                      | none => (false, none))).1
                then 0 else wrap64 (wrap64 (wrap64 (slot + 1) * (limitPeriod q).2) - now),
              allow :=
                (if (l.incr (allowRateName name (limitPeriod q).2 slot)
                      (limitPeriod q).2 1).1.2 = none
                    then (decide ((l.incr (allowRateName name (limitPeriod q).2 slot)
                      (limitPeriod q).2 1).1.1 ≤ (limitPeriod q).1), l.Fallback)
                    else (match l.Fallback with
                      | some f => ((f.Allow).1, some (f.Allow).2)
                      | none => (false, none))).1 },
            { redis := (l.incr (allowRateName name (limitPeriod q).2 slot) (limitPeriod q).2 1).2,
              Fallback :=
                (if (l.incr (allowRateName name (limitPeriod q).2 slot)
                      (limitPeriod q).2 1).1.2 = none
                    then (decide ((l.incr (allowRateName name (limitPeriod q).2 slot)
                      (limitPeriod q).2 1).1.1 ≤ (limitPeriod q).1), l.Fallback)
                    else (match l.Fallback with
                      | some f => ((f.Allow).1, some (f.Allow).2)
                      | none => (false, none))).2 }) := by
  unfold Limiter.AllowRate
  simp only [hq, if_false, h]

/-- C3. Degraded decision: when the store's increment call fails (the store is
unreachable and the call is reached, the divisor of the slot computation not
being 0), `AllowN` still returns, with `count = 0` and `allow` the fallback
limiter's verdict, or `false` when no fallback is configured; `AllowRate`
returns the same `allow`. With a fallback of 1 token per second and burst 1, two
immediate `AllowMinute` calls against the unreachable store return
(count 0, allow true) and then (count 0, allow false). -/
theorem degraded_decision (l : Limiter) (hdown : l.redis.up = false) :
    (∀ (utime : Int) (name : String) (maxn period n : Int), Int.tdiv period Second ≠ 0 →
      ∃ r l1, l.AllowN utime name maxn period n = some (r, l1) ∧
        r.count = 0 ∧ r.allow = fallbackVerdict l.Fallback) ∧
    (∀ (now : Int) (name : String) (q : ℚ), q ≠ 0 → (limitPeriod q).2 ≠ 0 →
      ∃ r l1, l.AllowRate now name (Limit.finite q) = some (r, l1) ∧
        r.allow = fallbackVerdict l.Fallback) ∧
    (∀ (u1 u2 : Int) (name : String), ∃ r1 l1 r2 l2,
      Limiter.AllowMinute { l with Fallback := some (NewFallback Second 1) } u1 name 1
        = some (r1, l1) ∧
      l1.AllowMinute u2 name 1 = some (r2, l2) ∧
      (r1.count = 0 ∧ r1.allow = true) ∧ (r2.count = 0 ∧ r2.allow = false)) := by
  refine ⟨?_, ?_, ?_⟩
  · intro utime name maxn period n hsecs
    refine ⟨_, _, AllowN_of_slot l utime name maxn period n _ (goDiv_of_ne_zero _ _ hsecs), ?_⟩
    simp only [Limiter.incr, Pipelined_down _ _ _ _ hdown]
    refine ⟨trivial, ?_⟩
    cases l.Fallback <;> simp [fallbackVerdict]
  · intro now name q hq hperiod
    refine ⟨_, _, AllowRate_of_slot l now name q _ hq (goDiv_of_ne_zero _ _ hperiod), ?_⟩
    simp only [Limiter.incr, Pipelined_down _ _ _ _ hdown]
    cases l.Fallback <;> simp [fallbackVerdict]
  · intro u1 u2 name
    have hsecs : Int.tdiv Minute Second ≠ 0 := by decide
    refine ⟨_, _, _, _,
      AllowN_of_slot _ u1 name 1 Minute 1 _ (goDiv_of_ne_zero _ _ hsecs),
      AllowN_of_slot _ u2 name 1 Minute 1 _ (goDiv_of_ne_zero _ _ hsecs), ?_, ?_⟩
    · simp only [Limiter.incr, Pipelined_down _ _ _ _ hdown]
      exact ⟨trivial, by decide⟩
    · simp only [Limiter.incr, Pipelined_down _ _ _ _ hdown]
      exact ⟨trivial, by decide⟩

/-- A concrete instance of C3: the unreachable store of `TestRedisIsDown`, without
and with the fallback of 1 token per second and burst 1. -/
theorem degraded_decision_witness :
    (∃ r l1, (NewLimiter downStore).AllowN 1700000000 "test_id" 1 Minute 1 = some (r, l1) ∧
        r.count = 0 ∧ r.allow = fallbackVerdict (NewLimiter downStore).Fallback) ∧
    (∃ r l1, (NewLimiter downStore).AllowRate 1700000000000000000 "rate" (Limit.finite 10)
        = some (r, l1) ∧ r.allow = fallbackVerdict (NewLimiter downStore).Fallback) ∧
    (∃ r1 l1 r2 l2,
      Limiter.AllowMinute { NewLimiter downStore with Fallback := some (NewFallback Second 1) }
        1700000000 "test_id" 1 = some (r1, l1) ∧
      l1.AllowMinute 1700000000 "test_id" 1 = some (r2, l2) ∧
      (r1.count = 0 ∧ r1.allow = true) ∧ (r2.count = 0 ∧ r2.allow = false)) :=
  ⟨(degraded_decision (NewLimiter downStore) rfl).1 1700000000 "test_id" 1 Minute 1 (by decide),
   (degraded_decision (NewLimiter downStore) rfl).2.1 1700000000000000000 "rate" 10
     (by norm_num) (by norm_num [limitPeriod, Second]),
   (degraded_decision (NewLimiter downStore) rfl).2.2 1700000000 1700000000 "test_id"⟩

/-! ## The fallback limiter on the success path -/

/-- `AllowRate` leaves the fallback limiter alone when the store call succeeds. -/
theorem AllowRate_keeps_fallback (l : Limiter) (now : Int) (name : String) (q : ℚ)
    (hq : q ≠ 0) (hperiod : (limitPeriod q).2 ≠ 0) (hup : l.redis.up = true) :
    ∃ r l1, l.AllowRate now name (Limit.finite q) = some (r, l1) ∧ l1.Fallback = l.Fallback := by
  refine ⟨_, _, AllowRate_of_slot l now name q _ hq (goDiv_of_ne_zero _ _ hperiod), ?_⟩
  simp only [Limiter.incr, Pipelined_up _ _ _ _ hup]
  simp

/-- `AllowN` queries the fallback limiter on every call, the store call succeeding
or not: the limiter left by the call holds the fallback after one `Allow`. -/
theorem AllowN_queries_fallback (l : Limiter) (f : FallbackLimiter) (utime : Int)
    (name : String) (maxn period n : Int)
    (hsecs : Int.tdiv period Second ≠ 0) (hf : l.Fallback = some f) :
    ∃ r l1, l.AllowN utime name maxn period n = some (r, l1) ∧
      l1.Fallback = some (f.Allow).2 := by
  refine ⟨_, _, AllowN_of_slot l utime name maxn period n _ (goDiv_of_ne_zero _ _ hsecs), ?_⟩
  simp only [hf]

/-- C4, at a failing input. With a reachable store and a fallback of 1 token per
second and burst 1, one `AllowN` call whose store increment succeeds (count 1,
allowed) leaves the fallback limiter with its token spent, not in the state it
had before the call; a store outage right after then finds the bucket empty and
`AllowMinute` denies. -/
theorem AllowN_spends_fallback_token :
    ∃ r l1, Limiter.AllowN { redis := emptyStore, Fallback := some (NewFallback Second 1) }
        1700000000 "test_id" 1 Minute 1 = some (r, l1) ∧
      (r.count = 1 ∧ r.allow = true) ∧
      l1.Fallback = some { every := Second, burst := 1, credit := 0 } ∧
      l1.Fallback ≠ some (NewFallback Second 1) ∧
      (∃ r2 l2, Limiter.AllowMinute { l1 with redis := downStore } 1700000000 "test_id" 1
          = some (r2, l2) ∧ r2.count = 0 ∧ r2.allow = false) := by
  refine ⟨_, _, AllowN_of_slot _ 1700000000 "test_id" 1 Minute 1 28333333 (by decide),
    ⟨by decide, by decide⟩, by decide, by decide, ?_⟩
  refine ⟨_, _, AllowN_of_slot _ 1700000000 "test_id" 1 Minute 1 28333333 (by decide),
    by decide, by decide⟩

/-! ## The delay of `AllowN` -/

theorem wrap64_range (x : Int) : minInt64 ≤ wrap64 x ∧ wrap64 x ≤ maxInt64 := by
  unfold wrap64 minInt64 maxInt64
  omega

/-- The chain of wrapped operations computing the delay of `AllowN` is the wrap
of the exact value. -/
theorem wrap64_delay (t secs utime : Int) :
    wrap64 (wrap64 (wrap64 (wrap64 (wrap64 t + 1) * secs) - utime) * Second)
      = wrap64 (((t + 1) * secs - utime) * Second) := by
  obtain ⟨k1, h1⟩ := wrap64_exists t
  obtain ⟨k2, h2⟩ := wrap64_exists (wrap64 t + 1)
  obtain ⟨k3, h3⟩ := wrap64_exists (wrap64 (wrap64 t + 1) * secs)
  obtain ⟨k4, h4⟩ := wrap64_exists (wrap64 (wrap64 (wrap64 t + 1) * secs) - utime)
  rw [h4, h3, h2, h1]
  rw [show ((t + 18446744073709551616 * k1 + 1 + 18446744073709551616 * k2) * secs
        + 18446744073709551616 * k3 - utime + 18446744073709551616 * k4) * Second
      = ((t + 1) * secs - utime) * Second
        + 18446744073709551616 * (((k1 + k2) * secs + k3 + k4) * Second) by ring]
  exact wrap64_add_mul _ _

/-- Time from `a` to the next multiple of `b` above it, for `a ≥ 0` and `b > 0`. -/
theorem next_multiple (a b : Int) (ha : 0 ≤ a) (hb : 0 < b) :
    (Int.tdiv a b + 1) * b - a = b - a % b ∧ 0 ≤ a % b ∧ a % b < b := by
  rw [Int.tdiv_eq_ediv ha hb.le]
  have h := Int.emod_add_ediv a b
  refine ⟨by linear_combination h, Int.emod_nonneg a (by omega), Int.emod_lt_of_pos a hb⟩

/-- The whole seconds of a period, in nanoseconds, do not exceed the period. -/
theorem secs_mul_le (period : Int) (h : Second ≤ period) :
    Int.tdiv period Second * Second ≤ period := by
  have hs : (0 : Int) < Second := by decide
  rw [Int.tdiv_eq_ediv (le_trans hs.le h) hs.le]
  exact Int.ediv_mul_le period (by decide)

/-- C5. For every period of at least one second and every non-negative clock
reading (Unix seconds), the delay returned by `AllowN` satisfies
`0 < delay ≤ period`, whatever the store's state, the outcome of the store call
and the verdict; it is the time to the start of the next slot,
`(slot + 1) * secs - utime` seconds with `secs` the period in whole seconds. -/
theorem AllowN_delay_bounds (l : Limiter) (utime : Int) (name : String) (maxn period n : Int)
    (hperiod : Second ≤ period) (hfit : period ≤ maxInt64) (hclock : 0 ≤ utime) :
    ∃ r l1, l.AllowN utime name maxn period n = some (r, l1) ∧
      0 < r.delay ∧ r.delay ≤ period ∧
      r.delay = ((Int.tdiv utime (Int.tdiv period Second) + 1) * Int.tdiv period Second - utime)
        * Second := by
  have hsecs := secs_pos period hperiod
  have hle := secs_mul_le period hperiod
  obtain ⟨hnext, h0, h1⟩ := next_multiple utime (Int.tdiv period Second) hclock (by omega)
  refine ⟨_, _, AllowN_of_slot l utime name maxn period n _
    (goDiv_of_ne_zero _ _ (by omega)), ?_⟩
  simp only [wrap64_delay]
  rw [hnext]
  generalize Int.tdiv period Second = secs at hsecs hle h0 h1
  generalize utime % secs = m at h0 h1
  have hval : wrap64 ((secs - m) * Second) = (secs - m) * Second := by
    apply wrap64_of_range
    · unfold minInt64 Second
      omega
    · unfold maxInt64 at *
      unfold Second at *
      omega
  rw [hval]
  unfold Second at *
  refine ⟨by omega, by omega, rfl⟩

/-- A concrete instance of C5: one-minute period, 20 seconds into the window. -/
theorem AllowN_delay_bounds_witness :
    ∃ r l1, (NewLimiter downStore).AllowN 1700000000 "test_id" 1 Minute 1 = some (r, l1) ∧
      0 < r.delay ∧ r.delay ≤ Minute ∧
      r.delay = ((Int.tdiv 1700000000 (Int.tdiv Minute Second) + 1) * Int.tdiv Minute Second
        - 1700000000) * Second :=
  AllowN_delay_bounds (NewLimiter downStore) 1700000000 "test_id" 1 Minute 1
    (by decide) (by decide) (by decide)

/-! ## Quotas of zero or less -/

/-- The result of `Reset` once the slot is known. -/
theorem Reset_of_slot (l : Limiter) (utime : Int) (name : String) (period slot : Int)
    (h : goDiv utime (Int.tdiv period Second) = some slot) :
    l.Reset utime name period =
      some ((l.redis.Del (allowName name slot)).1,
        { l with redis := (l.redis.Del (allowName name slot)).2 }) := by
  unfold Limiter.Reset
  simp only [h]

/-- C7, counterexample. For the period of 500 ms, which is `> 0`, the whole
seconds of the period are 0 and the slot computation of `AllowN` and of `Reset`
divides by zero: neither returns a result, whatever the other arguments. -/
theorem subsecond_period_divides_by_zero :
    (0 : Int) < 500000000 ∧
    (∀ (l : Limiter) (utime : Int) (name : String) (maxn n : Int),
      l.AllowN utime name maxn 500000000 n = none) ∧
    (∀ (l : Limiter) (utime : Int) (name : String), l.Reset utime name 500000000 = none) := by
  have hsecs : Int.tdiv 500000000 Second = 0 := by decide
  refine ⟨by decide, ?_, ?_⟩
  · intro l utime name maxn n
    simp [Limiter.AllowN, goDiv, hsecs]
  · intro l utime name
    simp [Limiter.Reset, goDiv, hsecs]

/-- Periods with the same whole seconds give `AllowN` the same slot, hence the
same result; only the expiry written to the store differs. -/
theorem AllowN_result_of_secs (l : Limiter) (utime : Int) (name : String)
    (maxn p1 p2 n : Int) (h : Int.tdiv p1 Second = Int.tdiv p2 Second) :
    (l.AllowN utime name maxn p1 n).map Prod.fst = (l.AllowN utime name maxn p2 n).map Prod.fst := by
  rcases hg : goDiv utime (Int.tdiv p2 Second) with _ | slot
  · have h1 : l.AllowN utime name maxn p1 n = none := by
      unfold Limiter.AllowN
      simp only [h, hg]
    have h2 : l.AllowN utime name maxn p2 n = none := by
      unfold Limiter.AllowN
      simp only [hg]
    rw [h1, h2]
  · rw [AllowN_of_slot l utime name maxn p1 n slot (by rw [h]; exact hg),
      AllowN_of_slot l utime name maxn p2 n slot hg]
    simp only [Option.map_some', Limiter.incr, Store.Pipelined, h]
    cases l.redis.up <;> simp

/-- C7, amended. For every period of at least one second `AllowN` and `Reset`
return a result: the divisor of the slot computation, the period in whole
seconds, is at least 1. A sub-second part of such a period is discarded: the
result of `AllowN` is the one for the period cut down to whole seconds. -/
theorem AllowN_returns_of_second (l : Limiter) (utime : Int) (name : String)
    (maxn period n : Int) (hperiod : Second ≤ period) :
    1 ≤ Int.tdiv period Second ∧
    (∃ r l1, l.AllowN utime name maxn period n = some (r, l1)) ∧
    (∃ e l1, l.Reset utime name period = some (e, l1)) ∧
    (l.AllowN utime name maxn period n).map Prod.fst =
      (l.AllowN utime name maxn (Int.tdiv period Second * Second) n).map Prod.fst := by
  have hsecs := secs_pos period hperiod
  refine ⟨hsecs, ⟨_, _, AllowN_of_slot l utime name maxn period n _
      (goDiv_of_ne_zero _ _ (by omega))⟩,
    ⟨_, _, Reset_of_slot l utime name period _ (goDiv_of_ne_zero _ _ (by omega))⟩, ?_⟩
  apply AllowN_result_of_secs
  rw [Int.mul_tdiv_cancel _ (by decide)]

/-- A concrete instance of the amended C7: a period of 1.5 s behaves as 1 s. -/
theorem AllowN_returns_of_second_witness :
    1 ≤ Int.tdiv 1500000000 Second ∧
    (∃ r l1, (NewLimiter emptyStore).AllowN 1700000000 "test_id" 1 1500000000 1 = some (r, l1)) ∧
    (∃ e l1, (NewLimiter emptyStore).Reset 1700000000 "test_id" 1500000000 = some (e, l1)) ∧
    ((NewLimiter emptyStore).AllowN 1700000000 "test_id" 1 1500000000 1).map Prod.fst =
      ((NewLimiter emptyStore).AllowN 1700000000 "test_id" 1
        (Int.tdiv 1500000000 Second * Second) 1).map Prod.fst :=
  AllowN_returns_of_second (NewLimiter emptyStore) 1700000000 "test_id" 1 1500000000 1
    (by decide)

/-! ## `AllowRate` -/

/-- With enough fuel the bit length `c + 1` of a positive `n` satisfies
`2 ^ c ≤ n < 2 ^ (c + 1)`. -/
theorem bitLength_spec (fuel : Nat) :
    ∀ n : Nat, n ≤ fuel → 0 < n →
      ∃ c, bitLength fuel n = c + 1 ∧ 2 ^ c ≤ n ∧ n < 2 ^ (c + 1) := by
  induction fuel with
  | zero =>
    intro n h1 h2
    omega
  | succ fuel ih =>
    intro n h1 h2
    simp only [bitLength, if_neg (by omega : ¬ n = 0)]
    by_cases h : n / 2 = 0
    · refine ⟨0, ?_, ?_, ?_⟩
      · rw [h]
        cases fuel <;> simp [bitLength]
      · simpa using h2
      · simp only [zero_add, pow_one]
        omega
    · obtain ⟨c, hc, hlo, hhi⟩ := ih (n / 2) (by omega) (by omega)
      refine ⟨c + 1, by rw [hc], ?_, ?_⟩
      · rw [pow_succ]
        omega
      · rw [pow_succ]
        omega

/-- The binary exponent is the integer logarithm to base 2. -/
theorem binaryExponent_eq_log (x : ℚ) : binaryExponent x = Int.log 2 x := by
  unfold binaryExponent
  split
  · rename_i hx1
    have hx : (0 : ℚ) < x := by linarith
    have hn : 0 < ⌊x⌋₊ := Nat.floor_pos.2 hx1
    obtain ⟨c, hc, hlo, hhi⟩ := bitLength_spec ⌊x⌋₊ ⌊x⌋₊ le_rfl hn
    rw [hc]
    have h1 : ((2 : ℕ) : ℚ) ^ (c : Int) ≤ x := by
      rw [zpow_natCast]
      calc ((2 : ℕ) : ℚ) ^ c = ((2 ^ c : ℕ) : ℚ) := by push_cast; rfl
        _ ≤ (⌊x⌋₊ : ℚ) := by exact_mod_cast hlo
        _ ≤ x := Nat.floor_le hx.le
    have h2 : x < ((2 : ℕ) : ℚ) ^ ((c : Int) + 1) := by
      rw [show ((c : Int) + 1) = ((c + 1 : ℕ) : Int) by push_cast; rfl, zpow_natCast]
      calc x < (⌊x⌋₊ : ℚ) + 1 := Nat.lt_floor_add_one x
        _ ≤ ((2 ^ (c + 1) : ℕ) : ℚ) := by exact_mod_cast hhi
        _ = ((2 : ℕ) : ℚ) ^ (c + 1) := by push_cast; rfl
    have h3 : (c : Int) ≤ Int.log 2 x := (Int.zpow_le_iff_le_log (by norm_num) hx).1 h1
    have h4 : Int.log 2 x < (c : Int) + 1 := (Int.lt_zpow_iff_log_lt (by norm_num) hx).1 h2
    push_cast
    omega
  · rfl

/-- The binary exponent of a positive rational between two powers of 2. -/
theorem intLog_eq (x : ℚ) (e : Int) (hx : 0 < x) (hlo : (2 : ℚ) ^ e ≤ x)
    (hhi : x < (2 : ℚ) ^ (e + 1)) : Int.log 2 x = e := by
  have h1 : e ≤ Int.log 2 x := (Int.zpow_le_iff_le_log (by norm_num) hx).1 (by exact_mod_cast hlo)
  have h2 : Int.log 2 x < e + 1 := (Int.lt_zpow_iff_log_lt (by norm_num) hx).1 (by exact_mod_cast hhi)
  omega

/-- A positive rational with at most 53 significant bits is its own rounding. -/
theorem roundFloat64_exact (x : ℚ) (e n : Int) (hx : 0 < x) (he : -1022 ≤ e)
    (hlo : (2 : ℚ) ^ e ≤ x) (hhi : x < (2 : ℚ) ^ (e + 1)) (hn : x = n * (2 : ℚ) ^ (e - 52)) :
    roundFloat64 x = x := by
  have hlog := intLog_eq x e hx hlo hhi
  have hulp : (2 : ℚ) ^ (e - 52) ≠ 0 := zpow_ne_zero _ (by norm_num)
  have hm : x / (2 : ℚ) ^ (e - 52) = (n : ℚ) := by
    rw [hn, mul_div_assoc, div_self hulp, mul_one]
  unfold roundFloat64
  rw [if_neg hx.ne']
  simp only [abs_of_pos hx, binaryExponent_eq_log, hlog, max_eq_left he, hm, Int.floor_intCast,
    sub_self]
  rw [if_neg (not_lt.2 hx.le), if_pos (by norm_num), one_mul, ← hn]

/-- The period `limitPeriod` returns for a rate below 1 whose quotient `1 / rl` has
at most 53 significant bits. -/
theorem limitPeriod_of_quotient (q x : ℚ) (e n : Int) (hq : q < 1) (hquot : 1 / q = x)
    (hx : 0 < x) (he : -1022 ≤ e) (hlo : (2 : ℚ) ^ e ≤ x) (hhi : x < (2 : ℚ) ^ (e + 1))
    (hn : x = n * (2 : ℚ) ^ (e - 52)) :
    limitPeriod q = (1, wrap64 (Second * int64OfRat x)) := by
  unfold limitPeriod
  rw [if_pos hq, hquot, roundFloat64_exact x e n hx he hlo hhi hn]

/-- The rounding of a positive rational stays below every multiple of its unit in
the last place that bounds it from above, and above every one that bounds it
from below. -/
theorem roundFloat64_between (x : ℚ) (A B : Int) (hx : 0 < x)
    (hA : (A : ℚ) * (2 : ℚ) ^ (max (Int.log 2 x) (-1022) - 52) ≤ x)
    (hB : x ≤ (B : ℚ) * (2 : ℚ) ^ (max (Int.log 2 x) (-1022) - 52)) :
    (A : ℚ) * (2 : ℚ) ^ (max (Int.log 2 x) (-1022) - 52) ≤ roundFloat64 x ∧
    roundFloat64 x ≤ (B : ℚ) * (2 : ℚ) ^ (max (Int.log 2 x) (-1022) - 52) := by
  have hulp : (0 : ℚ) < (2 : ℚ) ^ (max (Int.log 2 x) (-1022) - 52) := zpow_pos (by norm_num) _
  unfold roundFloat64
  rw [if_neg hx.ne', if_neg (not_lt.2 hx.le)]
  simp only [abs_of_pos hx, binaryExponent_eq_log, one_mul]
  generalize (2 : ℚ) ^ (max (Int.log 2 x) (-1022) - 52) = ulp at hA hB hulp ⊢
  have hmA : (A : ℚ) ≤ x / ulp := (le_div_iff₀ hulp).2 hA
  have hmB : x / ulp ≤ (B : ℚ) := (div_le_iff₀ hulp).2 hB
  have hfA : A ≤ ⌊x / ulp⌋ := Int.le_floor.2 hmA
  have hfm : ((⌊x / ulp⌋ : Int) : ℚ) ≤ x / ulp := Int.floor_le _
  have hfB : ⌊x / ulp⌋ ≤ B := by exact_mod_cast le_trans hfm hmB
  have hup : ¬ (x / ulp - (⌊x / ulp⌋ : Int) < 1 / 2) → ⌊x / ulp⌋ + 1 ≤ B := by
    intro h
    have h1 : ((⌊x / ulp⌋ : Int) : ℚ) < (B : ℚ) := by linarith
    have h2 : ⌊x / ulp⌋ < B := by exact_mod_cast h1
    omega
  have hn : ∀ n : Int, A ≤ n → n ≤ B → (A : ℚ) * ulp ≤ (n : ℚ) * ulp ∧ (n : ℚ) * ulp ≤ (B : ℚ) * ulp := by
    intro n h1 h2
    exact ⟨mul_le_mul_of_nonneg_right (by exact_mod_cast h1) hulp.le,
      mul_le_mul_of_nonneg_right (by exact_mod_cast h2) hulp.le⟩
  apply hn
  · split_ifs <;> omega
  · split_ifs with h1 h2 h3
    · exact hfB
    · exact hup h1
    · exact hfB
    · exact hup h1

/-- A quotient between 1 and 9223372036, the largest whole number of seconds of a
64-bit duration, is rounded to a `float64` between 1 and 9223372036. -/
theorem quotient_bounds (x : ℚ) (hx1 : 1 ≤ x) (hfit : x ≤ 9223372036) :
    1 ≤ roundFloat64 x ∧ roundFloat64 x ≤ 9223372036 := by
  have hx : (0 : ℚ) < x := by linarith
  have he0 : 0 ≤ Int.log 2 x :=
    (Int.zpow_le_iff_le_log (by norm_num) hx).1 (by norm_num; linarith)
  have he1 : Int.log 2 x < 34 :=
    (Int.lt_zpow_iff_log_lt (by norm_num) hx).1 (by norm_num; linarith)
  have hmax : max (Int.log 2 x) (-1022) = Int.log 2 x := max_eq_left (by omega)
  obtain ⟨k, hk⟩ : ∃ k : Nat, (k : Int) = 52 - Int.log 2 x :=
    ⟨(52 - Int.log 2 x).toNat, Int.toNat_of_nonneg (by omega)⟩
  have hpow : (2 : ℚ) ^ (Int.log 2 x - 52) = ((2 : ℚ) ^ k)⁻¹ := by
    rw [show Int.log 2 x - 52 = -(k : Int) by omega, zpow_neg, zpow_natCast]
  have hk0 : ((2 : ℚ) ^ k) ≠ 0 := pow_ne_zero _ (by norm_num)
  have h := roundFloat64_between x ((2 : Int) ^ k) (9223372036 * (2 : Int) ^ k) hx
    (by
      rw [hmax, hpow]
      push_cast
      rw [mul_inv_cancel₀ hk0]
      exact hx1)
    (by
      rw [hmax, hpow]
      push_cast
      rw [mul_assoc, mul_inv_cancel₀ hk0, mul_one]
      exact hfit)
  rw [hmax, hpow] at h
  push_cast at h
  rw [mul_inv_cancel₀ hk0, mul_assoc, mul_inv_cancel₀ hk0, mul_one] at h
  exact h

theorem limitPeriod_one : limitPeriod 1 = (1, Second) := by
  norm_num [limitPeriod, int64OfRat, minInt64, maxInt64]

theorem limitPeriod_ten : limitPeriod 10 = (10, Second) := by
  norm_num [limitPeriod, int64OfRat, minInt64, maxInt64]

/-- Two events per minute: one event per window of 30 seconds. -/
theorem limitPeriod_two_per_minute : limitPeriod (1 / 30) = (1, 30000000000) := by
  rw [limitPeriod_of_quotient (1 / 30) 30 4 (30 * 2 ^ 48) (by norm_num) (by norm_num)
    (by norm_num) (by norm_num) (by norm_num) (by norm_num) (by norm_num)]
  norm_num [int64OfRat, minInt64, maxInt64, wrap64, Second]

/-- At the rate `2⁻⁵⁵` events per second the product `time.Second * 2⁵⁵` is a
multiple of `2⁶⁴`: the period wraps to 0. -/
theorem limitPeriod_tiny : limitPeriod (1 / 36028797018963968) = (1, 0) := by
  rw [limitPeriod_of_quotient (1 / 36028797018963968) 36028797018963968 55 (2 ^ 52)
    (by norm_num) (by norm_num) (by norm_num) (by norm_num) (by norm_num) (by norm_num)
    (by norm_num)]
  norm_num [int64OfRat, minInt64, maxInt64, wrap64, Second]

/-- At the rate `2⁻⁵⁴` events per second the period wraps to the smallest `int64`. -/
theorem limitPeriod_tiny_neg :
    limitPeriod (1 / 18014398509481984) = (1, -9223372036854775808) := by
  rw [limitPeriod_of_quotient (1 / 18014398509481984) 18014398509481984 54 (2 ^ 52)
    (by norm_num) (by norm_num) (by norm_num) (by norm_num) (by norm_num) (by norm_num)
    (by norm_num)]
  norm_num [int64OfRat, minInt64, maxInt64, wrap64, Second]

/-- At the rate `2⁻⁵⁵` the slot computation of `AllowRate` divides by zero. -/
theorem AllowRate_tiny (l : Limiter) (now : Int) (name : String) :
    l.AllowRate now name (Limit.finite (1 / 36028797018963968)) = none := by
  have hq : (1 / 36028797018963968 : ℚ) ≠ 0 := by norm_num
  unfold Limiter.AllowRate
  simp only [hq, if_false, limitPeriod_tiny]
  rfl

/-- The wrapped operations computing the delay of `AllowRate` give the wrap of
the exact value. -/
theorem wrap64_rate_delay (t period now : Int) :
    wrap64 (wrap64 (wrap64 (wrap64 t + 1) * period) - now)
      = wrap64 ((t + 1) * period - now) := by
  obtain ⟨k1, h1⟩ := wrap64_exists t
  obtain ⟨k2, h2⟩ := wrap64_exists (wrap64 t + 1)
  obtain ⟨k3, h3⟩ := wrap64_exists (wrap64 (wrap64 t + 1) * period)
  rw [h3, h2, h1]
  rw [show (t + 18446744073709551616 * k1 + 1 + 18446744073709551616 * k2) * period
        + 18446744073709551616 * k3 - now
      = (t + 1) * period - now + 18446744073709551616 * ((k1 + k2) * period + k3) by ring]
  exact wrap64_add_mul _ _

/-- The period returned by `limitPeriod` is an `int64`. -/
theorem limitPeriod_period_le (q : ℚ) : (limitPeriod q).2 ≤ maxInt64 := by
  unfold limitPeriod
  split
  · exact (wrap64_range _).2
  · show Second ≤ maxInt64
    decide

/-- The delay `AllowRate` reports on a denial, for a non-negative clock reading
and a positive period: the time to the next multiple of the period. -/
theorem rate_delay_value (now period : Int) (hclock : 0 ≤ now) (hpos : 0 < period)
    (hfit : period ≤ maxInt64) :
    wrap64 (wrap64 (wrap64 (wrap64 (Int.tdiv now period) + 1) * period) - now)
      = period - now % period := by
  obtain ⟨hnext, h0, h1⟩ := next_multiple now period hclock hpos
  rw [wrap64_rate_delay, hnext]
  apply wrap64_of_range
  · unfold minInt64
    omega
  · omega

/-- One `AllowRate` call with a reachable store, finite non-zero rate and
non-zero period, its result written out with `slot = wrap64 (now / period)`. -/
theorem AllowRate_up (l : Limiter) (now : Int) (name : String) (q : ℚ)
    (hq : q ≠ 0) (hperiod : (limitPeriod q).2 ≠ 0) (hup : l.redis.up = true) :
    ∃ r l1, l.AllowRate now name (Limit.finite q) = some (r, l1) ∧
      r.allow = decide (l.redis.counter (allowRateName name (limitPeriod q).2
        (wrap64 (Int.tdiv now (limitPeriod q).2))) + 1 ≤ (limitPeriod q).1) ∧
      r.delay = (if r.allow then 0 else
        wrap64 (wrap64 (wrap64 (wrap64 (Int.tdiv now (limitPeriod q).2) + 1) * (limitPeriod q).2)
          - now)) ∧
      l1.redis.up = true ∧
      l1.redis.counter (allowRateName name (limitPeriod q).2
          (wrap64 (Int.tdiv now (limitPeriod q).2))) =
        l.redis.counter (allowRateName name (limitPeriod q).2
          (wrap64 (Int.tdiv now (limitPeriod q).2))) + 1 ∧
      (∀ k, k ≠ allowRateName name (limitPeriod q).2 (wrap64 (Int.tdiv now (limitPeriod q).2)) →
        l1.redis.data k = l.redis.data k) := by
  refine ⟨_, _, AllowRate_of_slot l now name q _ hq (goDiv_of_ne_zero _ _ hperiod), ?_⟩
  simp only [Limiter.incr, Pipelined_up _ _ _ _ hup]
  refine ⟨by simp, by simp, hup, by simp [Store.counter], ?_⟩
  intro k hk
  simp [hk]

/-- For a non-negative `int64` clock reading and a positive period the slot of
`AllowRate`, Go's truncated quotient, is the floor of `now / period`. -/
theorem rate_slot_floor (now period : Int) (hclock : 0 ≤ now) (hhi : now ≤ maxInt64)
    (hpos : 0 < period) : wrap64 (Int.tdiv now period) = Int.fdiv now period := by
  have h := tdiv_int64 now period hpos (by unfold minInt64; omega) hhi
  rw [wrap64_of_range h.1 h.2, Int.tdiv_eq_ediv hclock hpos.le, Int.fdiv_eq_ediv now hpos.le]

/-- C8, counterexample. (a) At the clock reading of -1 ns and the rate of 1 event
per second (limit 1, period 1 s), floor(now / period) is -1, yet `AllowRate`
increments the counter of slot 0 and leaves the counter at the key of slot -1 at
0. (b) The rate `2⁻⁵⁵` events per second is finite and positive, yet its
normalized period is 0 and `AllowRate` returns no result. -/
theorem AllowRate_slot_is_not_floor :
    (limitPeriod 1 = (1, Second) ∧ Int.fdiv (-1) Second = -1 ∧
      ∃ r l1, (NewLimiter emptyStore).AllowRate (-1) "rate" (Limit.finite 1) = some (r, l1) ∧
        l1.redis.counter (allowRateName "rate" Second (Int.fdiv (-1) Second)) = 0 ∧
        l1.redis.counter (allowRateName "rate" Second 0) = 1) ∧
    ((0 : ℚ) < 1 / 36028797018963968 ∧
      ∀ (l : Limiter) (now : Int) (name : String),
        l.AllowRate now name (Limit.finite (1 / 36028797018963968)) = none) := by
  refine ⟨⟨limitPeriod_one, by decide, _, _,
    AllowRate_of_slot _ (-1) "rate" 1 0 (by norm_num) (by rw [limitPeriod_one]; decide), ?_, ?_⟩,
    by norm_num, AllowRate_tiny⟩
  · simp only [limitPeriod_one]
    decide
  · simp only [limitPeriod_one]
    decide

/-- C8, amended. `AllowRate` single step for a finite rate `q > 0` normalized to
`(limit, period)` with `period ≥ 1 s`, at a non-negative clock reading and with
a reachable store: with `slot = floor(now / period)` and `c` the counter at the
key of `(name, period, slot)` before the call, the call increments that counter
by exactly 1, changes no other key, and returns `allow = true` exactly when
`c + 1 ≤ limit`; the delay is 0 when allowed and `(slot + 1) * period - now`
when denied. -/
theorem AllowRate_single_step (l : Limiter) (now : Int) (name : String) (q : ℚ) (c : Int)
    (hq : 0 < q) (hperiod : Second ≤ (limitPeriod q).2)
    (hclock : 0 ≤ now) (hhi : now ≤ maxInt64) (hup : l.redis.up = true)
    (hc : l.redis.counter
      (allowRateName name (limitPeriod q).2 (Int.fdiv now (limitPeriod q).2)) = c) :
    ∃ r l1, l.AllowRate now name (Limit.finite q) = some (r, l1) ∧
      l1.redis.counter
        (allowRateName name (limitPeriod q).2 (Int.fdiv now (limitPeriod q).2)) = c + 1 ∧
      (∀ k, k ≠ allowRateName name (limitPeriod q).2 (Int.fdiv now (limitPeriod q).2) →
        l1.redis.data k = l.redis.data k) ∧
      (r.allow = true ↔ c + 1 ≤ (limitPeriod q).1) ∧
      (r.allow = true → r.delay = 0) ∧
      (r.allow = false →
        r.delay = (Int.fdiv now (limitPeriod q).2 + 1) * (limitPeriod q).2 - now) := by
  have hpos : 0 < (limitPeriod q).2 := lt_of_lt_of_le (by decide) hperiod
  obtain ⟨r, l1, hcall, hallow, hdelay, -, hctr, hframe⟩ :=
    AllowRate_up l now name q hq.ne' hpos.ne' hup
  have hfloor := rate_slot_floor now (limitPeriod q).2 hclock hhi hpos
  have hval := rate_delay_value now (limitPeriod q).2 hclock hpos (limitPeriod_period_le q)
  obtain ⟨hnext, -, -⟩ := next_multiple now (limitPeriod q).2 hclock hpos
  rw [hval] at hdelay
  rw [hfloor] at hallow hctr hframe
  rw [hc] at hallow hctr
  refine ⟨r, l1, hcall, hctr, hframe, by simp [hallow], ?_, ?_⟩
  · intro h
    simp [hdelay, h]
  · intro h
    rw [← hfloor, wrap64_of_range
      (tdiv_int64 now _ hpos (by unfold minInt64; omega) hhi).1
      (tdiv_int64 now _ hpos (by unfold minInt64; omega) hhi).2, hnext]
    simp [hdelay, h]

/-- A concrete instance of the amended C8: 10 events per second, first call. -/
theorem AllowRate_single_step_witness :
    ∃ r l1, (NewLimiter emptyStore).AllowRate 1700000000123456789 "rate" (Limit.finite 10)
        = some (r, l1) ∧
      l1.redis.counter (allowRateName "rate" (limitPeriod 10).2
        (Int.fdiv 1700000000123456789 (limitPeriod 10).2)) = 0 + 1 ∧
      (∀ k, k ≠ allowRateName "rate" (limitPeriod 10).2
          (Int.fdiv 1700000000123456789 (limitPeriod 10).2) →
        l1.redis.data k = (NewLimiter emptyStore).redis.data k) ∧
      (r.allow = true ↔ (0 : Int) + 1 ≤ (limitPeriod 10).1) ∧
      (r.allow = true → r.delay = 0) ∧
      (r.allow = false →
        r.delay = (Int.fdiv 1700000000123456789 (limitPeriod 10).2 + 1) * (limitPeriod 10).2
          - 1700000000123456789) :=
  AllowRate_single_step (NewLimiter emptyStore) 1700000000123456789 "rate" 10 0
    (by norm_num) (by rw [limitPeriod_ten]) (by decide) (by decide) rfl rfl

/-- Calls of `AllowRate` whose clock readings share the slot `slot`, against a
reachable store: the `i`-th call (from 0) is allowed exactly when `c + i + 1` is
at most the limit, `c` being the counter before the first call. -/
theorem runAllowRate_same_slot (name : String) (q : ℚ) (slot : Int)
    (hq : q ≠ 0) (hperiod : (limitPeriod q).2 ≠ 0) :
    ∀ (ts : List Int) (l : Limiter), l.redis.up = true →
      (∀ t ∈ ts, wrap64 (Int.tdiv t (limitPeriod q).2) = slot) →
      ∃ rs l1, runAllowRate l name (Limit.finite q) ts = some (rs, l1) ∧
        rs.map (fun r => r.allow) =
          (List.range ts.length).map (fun (i : Nat) =>
            decide (l.redis.counter (allowRateName name (limitPeriod q).2 slot) + (i : Int) + 1
              ≤ (limitPeriod q).1)) := by
  intro ts
  induction ts with
  | nil =>
    intro l _ _
    exact ⟨[], l, rfl, rfl⟩
  | cons t ts ih =>
    intro l hup hts
    have hslot := hts t (List.mem_cons_self t ts)
    obtain ⟨r, l1, hcall, hallow, -, hup1, hctr, -⟩ := AllowRate_up l t name q hq hperiod hup
    rw [hslot] at hallow hctr
    obtain ⟨rs, l2, hrun, hrs⟩ := ih l1 hup1 (fun u hu => hts u (List.mem_cons_of_mem t hu))
    refine ⟨r :: rs, l2, ?_, ?_⟩
    · simp only [runAllowRate, hcall, hrun]
    · rw [List.map_cons, hrs, hctr, List.length_cons, List.range_succ_eq_map, List.map_cons,
        List.map_map, hallow]
      refine congrArg₂ List.cons (by simp) ?_
      apply List.map_congr_left
      intro i _
      simp only [Function.comp, Nat.succ_eq_add_one, Nat.cast_add, Nat.cast_one]
      rw [show l.redis.counter (allowRateName name (limitPeriod q).2 slot) + 1 + (i : Int) + 1
        = l.redis.counter (allowRateName name (limitPeriod q).2 slot) + ((i : Int) + 1) + 1
        by ring]

/-- C9, counterexample. The rate `2⁻⁵⁵` events per second is finite and positive
and normalizes to the limit 1, yet with any store no call to `AllowRate` is
allowed: the normalized period is 0 and the first call already returns no
result (integer division by zero). -/
theorem AllowRate_tiny_rate_no_result :
    (0 : ℚ) < 1 / 36028797018963968 ∧ limitPeriod (1 / 36028797018963968) = (1, 0) ∧
    ∀ (l : Limiter) (name : String) (t : Int) (ts : List Int),
      runAllowRate l name (Limit.finite (1 / 36028797018963968)) (t :: ts) = none := by
  refine ⟨by norm_num, limitPeriod_tiny, ?_⟩
  intro l name t ts
  rw [runAllowRate, AllowRate_tiny]

/-- C9, amended. For every finite rate `q > 0` whose normalized pair
`(limit, period)` has `period ≥ 1 s`, and a name with no counter in the current
window: against a reachable store the first `limit` calls to `AllowRate` made
inside one and the same window (slot) are all allowed and the next call inside
that window is denied. -/
theorem AllowRate_quota_in_window (l : Limiter) (name : String) (q : ℚ) (slot : Int)
    (ts : List Int)
    (hq : 0 < q) (hperiod : Second ≤ (limitPeriod q).2) (hup : l.redis.up = true)
    (hlen : ts.length = (limitPeriod q).1.toNat + 1)
    (hclock : ∀ t ∈ ts, minInt64 ≤ t ∧ t ≤ maxInt64)
    (hwindow : ∀ t ∈ ts, Int.tdiv t (limitPeriod q).2 = slot)
    (hfresh : l.redis.data (allowRateName name (limitPeriod q).2 slot) = none) :
    ∃ rs l1, runAllowRate l name (Limit.finite q) ts = some (rs, l1) ∧
      rs.map (fun r => r.allow) =
        List.replicate (limitPeriod q).1.toNat true ++ [false] := by
  have hpos : 0 < (limitPeriod q).2 := lt_of_lt_of_le (by decide) hperiod
  obtain ⟨rs, l1, hrun, hrs⟩ := runAllowRate_same_slot name q slot hq.ne' hpos.ne' ts l hup
    (fun t ht => by
      have h := tdiv_int64 t _ hpos (hclock t ht).1 (hclock t ht).2
      rw [wrap64_of_range h.1 h.2]
      exact hwindow t ht)
  refine ⟨rs, l1, hrun, ?_⟩
  have hc : l.redis.counter (allowRateName name (limitPeriod q).2 slot) = 0 := by
    simp [Store.counter, hfresh]
  rw [hrs, hlen, hc, List.range_succ, List.map_append]
  congr 1
  · rw [List.eq_replicate_iff]
    refine ⟨by simp, ?_⟩
    intro b hb
    obtain ⟨i, hi, rfl⟩ := List.mem_map.1 hb
    have hi1 : i < (limitPeriod q).1.toNat := List.mem_range.1 hi
    have : (0 : Int) + (i : Int) + 1 ≤ (limitPeriod q).1 := by omega
    exact decide_eq_true this
  · have : ¬ ((0 : Int) + ((limitPeriod q).1.toNat : Int) + 1 ≤ (limitPeriod q).1) := by omega
    rw [List.map_singleton, decide_eq_false this]

/-- Concrete instances of the amended C9: 2 events per minute, two calls inside
one window of 30 seconds (`TestAllowRateMinute`), and 10 events per second,
eleven calls inside one second (`TestAllowRateSecond`). -/
theorem AllowRate_quota_in_window_witness :
    (∃ rs l1, runAllowRate (NewLimiter emptyStore) "rate" (Limit.finite (1 / 30))
        [1700000010000000001, 1700000010000000002] = some (rs, l1) ∧
      rs.map (fun r => r.allow) =
        List.replicate (limitPeriod (1 / 30)).1.toNat true ++ [false]) ∧
    (∃ rs l1, runAllowRate (NewLimiter emptyStore) "rate" (Limit.finite 10)
        (List.replicate 11 1700000000123456789) = some (rs, l1) ∧
      rs.map (fun r => r.allow) = List.replicate (limitPeriod 10).1.toNat true ++ [false]) :=
  ⟨AllowRate_quota_in_window (NewLimiter emptyStore) "rate" (1 / 30) 56666667
    [1700000010000000001, 1700000010000000002]
    (by norm_num) (by rw [limitPeriod_two_per_minute]; decide) rfl
    (by rw [limitPeriod_two_per_minute]; decide) (by decide)
    (by rw [limitPeriod_two_per_minute]; decide) rfl,
   AllowRate_quota_in_window (NewLimiter emptyStore) "rate" 10 1700000000
    (List.replicate 11 1700000000123456789)
    (by norm_num) (by rw [limitPeriod_ten]) rfl
    (by rw [limitPeriod_ten]; decide) (by decide)
    (by rw [limitPeriod_ten]; decide) rfl⟩

/-! ## The delay of `AllowRate` -/

/-- C10, counterexample. (a) Two events per minute (window of 30 s), two immediate
calls at a clock reading that is a multiple of 30 s: the second call is denied
with a delay of exactly 30 s, not less. (b) At the finite positive rate `2⁻⁵⁴`
events per second the normalized period is negative and a denied call returns a
positive delay, above the period. -/
theorem AllowRate_delay_reaches_period :
    (limitPeriod (1 / 30) = (1, 30000000000) ∧ (0 : Int) ≤ 1700000010000000000 ∧
      (runAllowRate (NewLimiter emptyStore) "rate" (Limit.finite (1 / 30))
        [1700000010000000000, 1700000010000000000]).map Prod.fst
        = some [{ delay := 0, allow := true }, { delay := 30000000000, allow := false }]) ∧
    ((0 : ℚ) < 1 / 18014398509481984 ∧
      limitPeriod (1 / 18014398509481984) = (1, -9223372036854775808) ∧
      (runAllowRate (NewLimiter emptyStore) "rate" (Limit.finite (1 / 18014398509481984))
        [1, 1]).map Prod.fst
        = some [{ delay := 0, allow := true },
                { delay := 9223372036854775807, allow := false }]) := by
  refine ⟨⟨limitPeriod_two_per_minute, by decide, ?_⟩, by norm_num, limitPeriod_tiny_neg, ?_⟩
  · have hq : (1 / 30 : ℚ) ≠ 0 := by norm_num
    have hslot : goDiv 1700000010000000000 (limitPeriod (1 / 30)).2 = some 56666667 := by
      rw [limitPeriod_two_per_minute]
      decide
    rw [runAllowRate, AllowRate_of_slot _ _ "rate" _ 56666667 hq hslot]
    simp only [runAllowRate]
    rw [AllowRate_of_slot _ _ "rate" _ 56666667 hq hslot]
    simp only [limitPeriod_two_per_minute]
    decide
  · have hq : (1 / 18014398509481984 : ℚ) ≠ 0 := by norm_num
    have hslot : goDiv 1 (limitPeriod (1 / 18014398509481984)).2 = some 0 := by
      rw [limitPeriod_tiny_neg]
      decide
    rw [runAllowRate, AllowRate_of_slot _ _ "rate" _ 0 hq hslot]
    simp only [runAllowRate]
    rw [AllowRate_of_slot _ _ "rate" _ 0 hq hslot]
    simp only [limitPeriod_tiny_neg]
    decide

/-- C10, amended. Whenever `AllowRate` denies an event for a finite rate `q > 0`
whose normalized period is at least one second, at a non-negative clock reading,
the delay satisfies `0 < delay ≤ period`; it is the time to the next multiple of
the period, and it is strictly below the period exactly when the clock reading
is not a multiple of the period. -/
theorem AllowRate_delay_bounds (l : Limiter) (now : Int) (name : String) (q : ℚ)
    (hq : 0 < q) (hperiod : Second ≤ (limitPeriod q).2) (hclock : 0 ≤ now) :
    ∃ r l1, l.AllowRate now name (Limit.finite q) = some (r, l1) ∧
      (r.allow = false →
        0 < r.delay ∧ r.delay ≤ (limitPeriod q).2 ∧
        r.delay = (limitPeriod q).2 - now % (limitPeriod q).2 ∧
        (r.delay < (limitPeriod q).2 ↔ now % (limitPeriod q).2 ≠ 0)) := by
  have hpos : 0 < (limitPeriod q).2 := lt_of_lt_of_le (by decide) hperiod
  have hval := rate_delay_value now (limitPeriod q).2 hclock hpos (limitPeriod_period_le q)
  obtain ⟨-, h0, h1⟩ := next_multiple now (limitPeriod q).2 hclock hpos
  refine ⟨_, _, AllowRate_of_slot l now name q _ hq.ne' (goDiv_of_ne_zero _ _ hpos.ne'), ?_⟩
  intro hdeny
  simp only [] at hdeny
  simp only [hdeny, hval]
  refine ⟨?_, ?_, ?_, ?_⟩
  · simp only [Bool.false_eq_true, if_false]
    omega
  · simp only [Bool.false_eq_true, if_false]
    omega
  · simp only [Bool.false_eq_true, if_false]
  · simp only [Bool.false_eq_true, if_false]
    omega

/-- A concrete instance of the amended C10: 2 events per minute, unreachable store
and no fallback, 10 s into a window of 30 s. -/
theorem AllowRate_delay_bounds_witness :
    ∃ r l1, (NewLimiter downStore).AllowRate 1700000020000000000 "rate" (Limit.finite (1 / 30))
        = some (r, l1) ∧
      (r.allow = false →
        0 < r.delay ∧ r.delay ≤ (limitPeriod (1 / 30)).2 ∧
        r.delay = (limitPeriod (1 / 30)).2 - 1700000020000000000 % (limitPeriod (1 / 30)).2 ∧
        (r.delay < (limitPeriod (1 / 30)).2 ↔
          1700000020000000000 % (limitPeriod (1 / 30)).2 ≠ 0)) :=
  AllowRate_delay_bounds (NewLimiter downStore) 1700000020000000000 "rate" (1 / 30)
    (by norm_num) (by rw [limitPeriod_two_per_minute]; decide) (by decide)

/-! ## Degenerate rates -/

/-- C11. Degenerate rates short-circuit: for every limiter (store and fallback
state), clock reading and name, `AllowRate` with the rate 0 returns
(delay 0, allow false) and with the infinite rate (delay 0, allow true), and
`ResetRate` with either rate returns no error; in all four cases the limiter,
its store included, is left exactly as it was. -/
theorem degenerate_rates (l : Limiter) (now : Int) (name : String) :
    l.AllowRate now name (Limit.finite 0) = some ({ delay := 0, allow := false }, l) ∧
    l.AllowRate now name Limit.Inf = some ({ delay := 0, allow := true }, l) ∧
    l.ResetRate now name (Limit.finite 0) = some (none, l) ∧
    l.ResetRate now name Limit.Inf = some (none, l) := by
  refine ⟨?_, rfl, ?_, rfl⟩
  · simp [Limiter.AllowRate]
  · simp [Limiter.ResetRate]

/-! ## Reset -/

theorem Del_up (s : Store) (key : String) (hup : s.up = true) :
    s.Del key = (none, { s with data := fun k => if k = key then none else s.data k }) := by
  unfold Store.Del
  rw [if_pos hup]

/-- C17, counterexample. With the period of 2.5 s the clock readings 5 s and 6 s
lie in one wall-clock window, the third one `[5 s, 7.5 s)`. After one earlier
`Allow` of the name at the reading 3 s with a period of one second, `Reset` at
5 s succeeds, yet the next `Allow` with quota 1 at 6 s returns count 2 and
`allow = false`: `Reset` removed the key of slot 2, `Allow` counts in slot 3. -/
theorem Reset_window_spans_two_slots :
    Second ≤ 2500000000 ∧
    Int.fdiv (5 * Second) 2500000000 = 2 ∧ Int.fdiv (6 * Second) 2500000000 = 2 ∧
    ((NewLimiter emptyStore).Allow 3 "test_id" 1 Second).bind (fun p0 =>
      (p0.2.Reset 5 "test_id" 2500000000).bind (fun p1 =>
        (p1.2.Allow 6 "test_id" 1 2500000000).map (fun p2 =>
          (p1.1, p2.1.count, p2.1.allow)))) = some (none, 2, false) := by
  refine ⟨by decide, by decide, by decide, ?_⟩
  simp only [Limiter.Allow]
  rw [AllowN_of_slot _ 3 "test_id" 1 Second 1 3 (by decide)]
  simp only [Option.some_bind]
  rw [Reset_of_slot _ 5 "test_id" 2500000000 2 (by decide)]
  simp only [Option.some_bind]
  rw [AllowN_of_slot _ 6 "test_id" 1 2500000000 1 3 (by decide)]
  decide

/-- C17, amended. Reset round trip: for every name, period of at least one
second, with `secs` its whole seconds, quota `maxn ≥ 1` and store state, a
successful `Reset(name, period)` (reachable store) removes the key of the current
slot `now / secs` and only that key, and the next `Allow(name, maxn, period)`
issued at a clock reading of the same slot returns `count = 1` and
`allow = true`. When the period is a whole number of seconds the slot of a
non-negative reading is its wall-clock window `floor(now / period)`. -/
theorem Reset_round_trip (l : Limiter) (t1 t2 : Int) (name : String) (maxn period : Int)
    (hperiod : Second ≤ period) (hmax : 1 ≤ maxn)
    (hlo1 : minInt64 ≤ t1) (hhi1 : t1 ≤ maxInt64) (hlo2 : minInt64 ≤ t2) (hhi2 : t2 ≤ maxInt64)
    (hwindow : Int.tdiv t1 (Int.tdiv period Second) = Int.tdiv t2 (Int.tdiv period Second))
    (hup : l.redis.up = true) :
    (∃ l1, l.Reset t1 name period = some (none, l1) ∧
      l1.redis.data (allowName name (Int.tdiv t1 (Int.tdiv period Second))) = none ∧
      (∀ k, k ≠ allowName name (Int.tdiv t1 (Int.tdiv period Second)) →
        l1.redis.data k = l.redis.data k) ∧
      ∃ r l2, l1.Allow t2 name maxn period = some (r, l2) ∧ r.count = 1 ∧ r.allow = true) ∧
    (period = Int.tdiv period Second * Second →
      ∀ t, 0 ≤ t → Int.tdiv t (Int.tdiv period Second) = Int.fdiv (t * Second) period) := by
  refine ⟨?_, fun hwhole t h0 => slot_of_whole_period period t hperiod hwhole h0⟩
  have hsecs := secs_pos period hperiod
  have hslot1 := goDiv_eq t1 (Int.tdiv period Second) (by omega) hlo1 hhi1
  refine ⟨{ l with redis := (l.redis.Del
      (allowName name (Int.tdiv t1 (Int.tdiv period Second)))).2 }, ?_, ?_, ?_, ?_⟩
  · rw [Reset_of_slot l t1 name period _ hslot1, Del_up _ _ hup]
  · simp [Del_up _ _ hup]
  · intro k hk
    simp [Del_up _ _ hup, hk]
  · have hup1 : (l.redis.Del (allowName name (Int.tdiv t1 (Int.tdiv period Second)))).2.up
        = true := by
      simp [Del_up _ _ hup, hup]
    obtain ⟨r, l2, hcall, hcount, hallow, -, -⟩ :=
      AllowN_up { l with redis := (l.redis.Del
        (allowName name (Int.tdiv t1 (Int.tdiv period Second)))).2 }
        t2 name maxn period 1 hperiod hlo2 hhi2 hup1
    refine ⟨r, l2, hcall, ?_, ?_⟩
    · rw [hcount, ← hwindow]
      simp [Del_up _ _ hup, Store.counter]
    · rw [hallow, ← hwindow]
      simp [Del_up _ _ hup, Store.counter, hmax]

/-- A concrete instance of the amended C17: quota 1 per minute, exhausted by two
calls, then reset and asked again inside the same minute. -/
theorem Reset_round_trip_witness :
    (∃ l1, Limiter.Reset (NewLimiter { up := true, data := fun k =>
        if k = "rate:test_id-28333333" then some { count := 2, ttl := 90000000000 } else none })
        1700000001 "test_id" Minute = some (none, l1) ∧
      l1.redis.data (allowName "test_id" (Int.tdiv 1700000001 (Int.tdiv Minute Second))) = none ∧
      (∀ k, k ≠ allowName "test_id" (Int.tdiv 1700000001 (Int.tdiv Minute Second)) →
        l1.redis.data k = (NewLimiter { up := true, data := fun k =>
          if k = "rate:test_id-28333333" then some { count := 2, ttl := 90000000000 }
          else none }).redis.data k) ∧
      ∃ r l2, l1.Allow 1700000002 "test_id" 1 Minute = some (r, l2) ∧
        r.count = 1 ∧ r.allow = true) ∧
    (Minute = Int.tdiv Minute Second * Second →
      ∀ t, 0 ≤ t → Int.tdiv t (Int.tdiv Minute Second) = Int.fdiv (t * Second) Minute) :=
  Reset_round_trip _ 1700000001 1700000002 "test_id" 1 Minute
    (by decide) (by decide) (by decide) (by decide) (by decide) (by decide) (by decide) rfl

/-! ## Monotonicity of the counters -/

/-- An increment by `n ≥ 0` lowers no counter of the store, reachable or not. -/
theorem incr_counter_mono (l : Limiter) (key : String) (period n : Int) (hn : 0 ≤ n)
    (k : String) : l.redis.counter k ≤ (l.incr key period n).2.counter k := by
  unfold Limiter.incr Store.Pipelined
  cases hup : l.redis.up
  · simp
  · by_cases hk : k = key
    · subst hk
      simp [Store.counter]
      omega
    · simp [Store.counter, hk]

/-- `AllowRate` lowers no counter of the store, whatever the rate and the store. -/
theorem AllowRate_counter_mono (l l1 : Limiter) (now : Int) (name : String) (rl : Limit)
    (r : RateResult) (h : l.AllowRate now name rl = some (r, l1)) (k : String) :
    l.redis.counter k ≤ l1.redis.counter k := by
  cases rl with
  | Inf =>
    simp only [Limiter.AllowRate, Option.some.injEq, Prod.mk.injEq] at h
    rw [← h.2]
  | finite q =>
    by_cases hq : q = 0
    · subst hq
      simp only [Limiter.AllowRate, if_true, Option.some.injEq, Prod.mk.injEq] at h
      rw [← h.2]
    · rcases hg : goDiv now (limitPeriod q).2 with _ | slot
      · simp [Limiter.AllowRate, hq, hg] at h
      · rw [AllowRate_of_slot l now name q slot hq hg] at h
        simp only [Option.some.injEq, Prod.mk.injEq] at h
        rw [← h.2]
        exact incr_counter_mono l _ _ 1 (by decide) k

/-- C20, counterexample. Two sequential `AllowN` calls on one name inside one slot,
reachable store, no `Reset` in between: the first passes `n = 2` and returns
count 2, the second passes `n = -1` and returns count 1, and lowers the stored
counter from 2 to 1. -/
theorem negative_increment_lowers_count :
    ∃ r1 l1 r2 l2,
      (NewLimiter emptyStore).AllowN 1700000000 "test_id" 5 Minute 2 = some (r1, l1) ∧
      l1.AllowN 1700000001 "test_id" 5 Minute (-1) = some (r2, l2) ∧
      r1.count = 2 ∧ r2.count = 1 ∧ r2.count < r1.count ∧
      l1.redis.counter "rate:test_id-28333333" = 2 ∧
      l2.redis.counter "rate:test_id-28333333" = 1 := by
  refine ⟨_, _, _, _,
    AllowN_of_slot _ 1700000000 "test_id" 5 Minute 2 28333333 (by decide),
    AllowN_of_slot _ 1700000001 "test_id" 5 Minute (-1) 28333333 (by decide),
    by decide, by decide, by decide, by decide, by decide⟩

/-- C20, amended. For every name and slot and every two sequential `AllowN` calls on
that name inside that slot with a reachable store and no `Reset` in between,
the second call passing an increment `n2 ≥ 0`, the count returned by the second
call is at least the count returned by the first; an `AllowN` call with an
increment `≥ 0` and any `AllowRate` call lower no stored counter. -/
theorem counts_never_go_down (l : Limiter) (t1 t2 : Int) (name : String)
    (max1 max2 period n1 n2 : Int)
    (hperiod : Second ≤ period)
    (hlo1 : minInt64 ≤ t1) (hhi1 : t1 ≤ maxInt64) (hlo2 : minInt64 ≤ t2) (hhi2 : t2 ≤ maxInt64)
    (hwindow : Int.tdiv t1 (Int.tdiv period Second) = Int.tdiv t2 (Int.tdiv period Second))
    (hup : l.redis.up = true) (hn2 : 0 ≤ n2) :
    (∃ r1 l1 r2 l2, l.AllowN t1 name max1 period n1 = some (r1, l1) ∧
      l1.AllowN t2 name max2 period n2 = some (r2, l2) ∧ r1.count ≤ r2.count ∧
      (∀ k, l1.redis.counter k ≤ l2.redis.counter k) ∧
      (0 ≤ n1 → ∀ k, l.redis.counter k ≤ l1.redis.counter k)) ∧
    (∀ (now : Int) (nm : String) (rl : Limit) (r : RateResult) (l1 : Limiter),
      l.AllowRate now nm rl = some (r, l1) → ∀ k, l.redis.counter k ≤ l1.redis.counter k) := by
  refine ⟨?_, fun now nm rl r l1 h k => AllowRate_counter_mono l l1 now nm rl r h k⟩
  have hsecs := secs_pos period hperiod
  have hslot1 := goDiv_eq t1 (Int.tdiv period Second) (by omega) hlo1 hhi1
  have hslot2 := goDiv_eq t2 (Int.tdiv period Second) (by omega) hlo2 hhi2
  obtain ⟨r1, l1, hcall1, hcount1, -, hup1, hctr1⟩ :=
    AllowN_up l t1 name max1 period n1 hperiod hlo1 hhi1 hup
  obtain ⟨r2, l2, hcall2, hcount2, -, -, -⟩ :=
    AllowN_up l1 t2 name max2 period n2 hperiod hlo2 hhi2 hup1
  refine ⟨r1, l1, r2, l2, hcall1, hcall2, ?_, ?_, ?_⟩
  · rw [hcount2, ← hwindow, hctr1, hcount1]
    omega
  · intro k
    have h := AllowN_of_slot l1 t2 name max2 period n2 _ hslot2
    rw [hcall2] at h
    simp only [Option.some.injEq, Prod.mk.injEq] at h
    rw [h.2]
    exact incr_counter_mono l1 _ _ n2 hn2 k
  · intro hn1 k
    have h := AllowN_of_slot l t1 name max1 period n1 _ hslot1
    rw [hcall1] at h
    simp only [Option.some.injEq, Prod.mk.injEq] at h
    rw [h.2]
    exact incr_counter_mono l _ _ n1 hn1 k

/-- A concrete instance of the amended C20: the second and third calls of
`TestAllowN` (increments 2 and 0). -/
theorem counts_never_go_down_witness :
    (∃ r1 l1 r2 l2,
      (NewLimiter emptyStore).AllowN 1700000000 "test_allow_n" 1 Minute 2 = some (r1, l1) ∧
      l1.AllowN 1700000001 "test_allow_n" 1 Minute 0 = some (r2, l2) ∧ r1.count ≤ r2.count ∧
      (∀ k, l1.redis.counter k ≤ l2.redis.counter k) ∧
      ((0 : Int) ≤ 2 → ∀ k, (NewLimiter emptyStore).redis.counter k ≤ l1.redis.counter k)) ∧
    (∀ (now : Int) (nm : String) (rl : Limit) (r : RateResult) (l1 : Limiter),
      (NewLimiter emptyStore).AllowRate now nm rl = some (r, l1) →
        ∀ k, (NewLimiter emptyStore).redis.counter k ≤ l1.redis.counter k) :=
  counts_never_go_down (NewLimiter emptyStore) 1700000000 1700000001 "test_allow_n"
    1 1 Minute 2 0 (by decide) (by decide) (by decide) (by decide) (by decide) (by decide)
    rfl (by decide)

/-! ## Normalization of the rate -/

/-- Inside the `int64` range the conversion of a non-negative rational is its
floor. -/
theorem int64OfRat_floor (q : ℚ) (h0 : 0 ≤ q) (hfit : ⌊q⌋ ≤ maxInt64) : int64OfRat q = ⌊q⌋ := by
  have hnum : 0 ≤ q.num := Rat.num_nonneg.2 h0
  have hfl : Int.tdiv q.num q.den = ⌊q⌋ := by
    rw [Int.tdiv_eq_ediv hnum (by positivity), Rat.floor_def]
  have h0f : 0 ≤ ⌊q⌋ := Int.floor_nonneg.2 h0
  unfold int64OfRat
  simp only [hfl]
  rw [if_pos ⟨by unfold minInt64; omega, hfit⟩]

/-- The rate `2⁶³` events per second is outside the `int64` range: the limit is
the value the conversion takes there (the smallest `int64`). -/
theorem limitPeriod_huge : limitPeriod 9223372036854775808 = (minInt64, Second) := by
  norm_num [limitPeriod, int64OfRat, minInt64, maxInt64, wrap64, Second]

/-- The limit of a rate in `[1, 2⁶³)` is its floor, at least 1. -/
theorem limit_of_ge_one (q : ℚ) (h1 : 1 ≤ q) (hlt : q < 9223372036854775808) :
    (limitPeriod q).1 = ⌊q⌋ ∧ 1 ≤ (limitPeriod q).1 := by
  have hfl1 : 1 ≤ ⌊q⌋ := Int.le_floor.2 (by simpa using h1)
  have hfl2 : ⌊q⌋ < 9223372036854775808 := Int.floor_lt.2 (by simpa using hlt)
  have hconv := int64OfRat_floor q (by linarith) (by unfold maxInt64; omega)
  unfold limitPeriod
  rw [if_neg (by linarith)]
  simp only [hconv]
  exact ⟨trivial, hfl1⟩

/-- The limit of a rate below 1 is 1. -/
theorem limit_of_lt_one (q : ℚ) (h1 : q < 1) : (limitPeriod q).1 = 1 := by
  unfold limitPeriod
  rw [if_pos h1]

/-- The period of a rate `q` in `(0, 1)` is at least one second as long as
`1 / q` is at most 9223372036, the largest whole number of seconds of a 64-bit
duration. -/
theorem period_of_lt_one (q : ℚ) (hq : 0 < q) (h1 : q < 1) (hfit : 1 / q ≤ 9223372036) :
    Second ≤ (limitPeriod q).2 := by
  have hx1 : (1 : ℚ) ≤ 1 / q := by
    rw [le_div_iff₀ hq]
    linarith
  obtain ⟨hr1, hr2⟩ := quotient_bounds (1 / q) hx1 hfit
  have hfl1 : 1 ≤ ⌊roundFloat64 (1 / q)⌋ := Int.le_floor.2 (by simpa using hr1)
  have hfl2 : ⌊roundFloat64 (1 / q)⌋ ≤ 9223372036 := by
    have h : ((⌊roundFloat64 (1 / q)⌋ : Int) : ℚ) ≤ ((9223372036 : Int) : ℚ) :=
      le_trans (Int.floor_le _) (by simpa using hr2)
    exact_mod_cast h
  have hconv := int64OfRat_floor (roundFloat64 (1 / q)) (by linarith) (by unfold maxInt64; omega)
  unfold limitPeriod
  rw [if_pos h1]
  simp only [hconv]
  rw [wrap64_of_range (by unfold minInt64 Second; omega) (by unfold maxInt64 Second; omega)]
  unfold Second
  omega

/-- C12, counterexample. The rate `2⁻⁵⁵` events per second is finite and
positive; `limitPeriod` returns the period 0 for it, which is not at least one
second. (At the rate `2⁶³`, outside the `int64` range, the limit returned is
not at least 1.) -/
theorem limitPeriod_period_not_ge_second :
    ((0 : ℚ) < 1 / 36028797018963968 ∧ limitPeriod (1 / 36028797018963968) = (1, 0) ∧
      ¬ Second ≤ (limitPeriod (1 / 36028797018963968)).2) ∧
    ((0 : ℚ) < 9223372036854775808 ∧ ¬ 1 ≤ (limitPeriod 9223372036854775808).1) := by
  refine ⟨⟨by norm_num, limitPeriod_tiny, ?_⟩, by norm_num, ?_⟩
  · rw [limitPeriod_tiny]
    decide
  · rw [limitPeriod_huge]
    decide

/-- C12, amended. Shape of the normalization of a finite rate `q > 0` (the exact
rational a `float64` rate stands for): when `q ≥ 1` the period is exactly one
second, and the limit is an integer of at least 1 as long as `q < 2⁶³`; when
`q < 1` the limit is exactly 1, and the period is at least one second as long
as `1 / q` is at most 9223372036, the largest whole number of seconds of a
64-bit duration. -/
theorem limitPeriod_shape (q : ℚ) (hq : 0 < q) :
    (1 ≤ q → (limitPeriod q).2 = Second) ∧
    (q < 1 → (limitPeriod q).1 = 1) ∧
    (1 ≤ q → q < 9223372036854775808 → 1 ≤ (limitPeriod q).1) ∧
    (q < 1 → 1 / q ≤ 9223372036 → Second ≤ (limitPeriod q).2) := by
  refine ⟨?_, limit_of_lt_one q, fun h1 h2 => (limit_of_ge_one q h1 h2).2,
    period_of_lt_one q hq⟩
  intro h1
  unfold limitPeriod
  rw [if_neg (by linarith)]

/-- Concrete instances of the amended C12: 10 events per second and 2 events per
minute. -/
theorem limitPeriod_shape_witness :
    ((limitPeriod 10).2 = Second ∧ 1 ≤ (limitPeriod 10).1) ∧
    ((limitPeriod (1 / 30)).1 = 1 ∧ Second ≤ (limitPeriod (1 / 30)).2) :=
  ⟨⟨(limitPeriod_shape 10 (by norm_num)).1 (by norm_num),
    (limitPeriod_shape 10 (by norm_num)).2.2.1 (by norm_num) (by norm_num)⟩,
   ⟨(limitPeriod_shape (1 / 30) (by norm_num)).2.1 (by norm_num),
    (limitPeriod_shape (1 / 30) (by norm_num)).2.2.2 (by norm_num) (by norm_num)⟩⟩

/-- C13, at a failing input. The rate 0.4 events per second is one event per 2.5 s,
a whole number of nanoseconds, yet `limitPeriod` returns (1, 2 s): the quotient
`1 / rl = 2.5` is cut down to whole seconds before it is scaled, and the
normalized rate is 0.5 events per second. Two `AllowRate` calls 2 s apart,
inside one window of 2.5 s, are both allowed. -/
theorem limitPeriod_truncates_to_seconds :
    limitPeriod (2 / 5) = (1, 2 * Second) ∧
    ((limitPeriod (2 / 5)).1 : ℚ) / (((limitPeriod (2 / 5)).2 : ℚ) / (Second : ℚ)) = 1 / 2 ∧
    (1 / 2 : ℚ) ≠ 2 / 5 ∧
    Int.fdiv 1700000000000000000 2500000000 = Int.fdiv 1700000002000000000 2500000000 ∧
    (runAllowRate (NewLimiter emptyStore) "rate" (Limit.finite (2 / 5))
      [1700000000000000000, 1700000002000000000]).map Prod.fst
      = some [{ delay := 0, allow := true }, { delay := 0, allow := true }] := by
  have h : limitPeriod (2 / 5) = (1, 2 * Second) := by
    rw [limitPeriod_of_quotient (2 / 5) (5 / 2) 1 (5 * 2 ^ 50) (by norm_num) (by norm_num)
      (by norm_num) (by norm_num) (by norm_num) (by norm_num) (by norm_num)]
    norm_num [int64OfRat, minInt64, maxInt64, wrap64, Second]
    decide
  have hq : (2 / 5 : ℚ) ≠ 0 := by norm_num
  refine ⟨h, ?_, by norm_num, by decide, ?_⟩
  · rw [h]
    norm_num [Second]
  · have hslot1 : goDiv 1700000000000000000 (limitPeriod (2 / 5)).2 = some 850000000 := by
      rw [h]
      decide
    have hslot2 : goDiv 1700000002000000000 (limitPeriod (2 / 5)).2 = some 850000001 := by
      rw [h]
      decide
    rw [runAllowRate, AllowRate_of_slot _ _ "rate" _ 850000000 hq hslot1]
    simp only [runAllowRate]
    rw [AllowRate_of_slot _ _ "rate" _ 850000001 hq hslot2]
    simp only [h]
    decide

/-! ## Slots -/

/-- For a non-negative dividend and a positive divisor Go's quotient is the floor. -/
theorem tdiv_eq_fdiv (a b : Int) (ha : 0 ≤ a) (hb : 0 < b) : Int.tdiv a b = Int.fdiv a b := by
  rw [Int.tdiv_eq_ediv ha hb.le, Int.fdiv_eq_ediv a hb.le]

/-- Floors by a positive divisor grow with the dividend and advance by 1 when the
dividend advances by the divisor. -/
theorem fdiv_steps (a c b : Int) (hac : a ≤ c) (hb : 0 < b) :
    Int.fdiv a b ≤ Int.fdiv c b ∧ Int.fdiv (a + b) b = Int.fdiv a b + 1 := by
  rw [Int.fdiv_eq_ediv a hb.le, Int.fdiv_eq_ediv c hb.le, Int.fdiv_eq_ediv (a + b) hb.le]
  refine ⟨Int.ediv_le_ediv hb hac, ?_⟩
  rw [Int.add_ediv_of_dvd_right (dvd_refl b), Int.ediv_self hb.ne']

/-- C14, counterexample. For the period of 1.5 s and the clock reading of 3 s,
floor(now / period) is 2, yet `AllowN` works in the slot 3: it increments the
key of slot 3 and leaves the key of slot 2 untouched. -/
theorem AllowN_slot_ignores_subseconds :
    Second ≤ 1500000000 ∧ Int.fdiv (3 * Second) 1500000000 = 2 ∧
    ∃ r l1, (NewLimiter emptyStore).AllowN 3 "test_id" 1 1500000000 1 = some (r, l1) ∧
      l1.redis.counter (allowName "test_id" 3) = 1 ∧
      l1.redis.counter (allowName "test_id" (Int.fdiv (3 * Second) 1500000000)) = 0 := by
  refine ⟨by decide, by decide, _, _,
    AllowN_of_slot _ 3 "test_id" 1 1500000000 1 3 (by decide), by decide, by decide⟩

/-- C14, amended. For every period of at least one second, with `secs` its whole
seconds, and all non-negative clock readings `t1 ≤ t2`: `AllowN` works in the
slot `floor(t1 / secs)`, which is `floor(now / period)` when the period is a
whole number of seconds; the slot does not decrease from `t1` to `t2` and
advances by exactly 1 when the clock advances by `secs`. The same holds for
`AllowRate` and the slot `floor(now_ns / period_ns)` of a rate whose normalized
period is at least one second. -/
theorem slot_invariant (period t1 t2 : Int) (q : ℚ)
    (hperiod : Second ≤ period) (hq : 0 < q) (hnorm : Second ≤ (limitPeriod q).2)
    (h0 : 0 ≤ t1) (h12 : t1 ≤ t2) (hhi : t2 ≤ maxInt64) :
    ((∀ (l : Limiter) (name : String) (maxn n : Int),
        ∃ r l1, l.AllowN t1 name maxn period n = some (r, l1) ∧
          l1.redis = (l.incr (allowName name (Int.fdiv t1 (Int.tdiv period Second))) period n).2) ∧
      (period = Int.tdiv period Second * Second →
        Int.fdiv t1 (Int.tdiv period Second) = Int.fdiv (t1 * Second) period) ∧
      Int.fdiv t1 (Int.tdiv period Second) ≤ Int.fdiv t2 (Int.tdiv period Second) ∧
      Int.fdiv (t1 + Int.tdiv period Second) (Int.tdiv period Second)
        = Int.fdiv t1 (Int.tdiv period Second) + 1) ∧
    ((∀ (l : Limiter) (name : String),
        ∃ r l1, l.AllowRate t1 name (Limit.finite q) = some (r, l1) ∧
          l1.redis = (l.incr (allowRateName name (limitPeriod q).2
            (Int.fdiv t1 (limitPeriod q).2)) (limitPeriod q).2 1).2) ∧
      Int.fdiv t1 (limitPeriod q).2 ≤ Int.fdiv t2 (limitPeriod q).2 ∧
      Int.fdiv (t1 + (limitPeriod q).2) (limitPeriod q).2 = Int.fdiv t1 (limitPeriod q).2 + 1) := by
  have hsecs := secs_pos period hperiod
  have hpos : 0 < (limitPeriod q).2 := lt_of_lt_of_le (by decide) hnorm
  have hlo : minInt64 ≤ t1 := by unfold minInt64; omega
  have hhi1 : t1 ≤ maxInt64 := le_trans h12 hhi
  refine ⟨⟨?_, ?_, (fdiv_steps t1 t2 _ h12 (by omega)).1, (fdiv_steps t1 t2 _ h12 (by omega)).2⟩,
    ⟨?_, (fdiv_steps t1 t2 _ h12 hpos).1, (fdiv_steps t1 t2 _ h12 hpos).2⟩⟩
  · intro l name maxn n
    have hslot := goDiv_eq t1 (Int.tdiv period Second) (by omega) hlo hhi1
    rw [tdiv_eq_fdiv t1 _ h0 (by omega)] at hslot
    exact ⟨_, _, AllowN_of_slot l t1 name maxn period n _ hslot, rfl⟩
  · intro hwhole
    have hS : (0 : Int) < Second := by decide
    rw [Int.fdiv_eq_ediv t1 (by omega), Int.fdiv_eq_ediv (t1 * Second) (by omega)]
    conv_rhs => rw [hwhole]
    rw [Int.mul_ediv_mul_of_pos_left _ _ hS]
  · intro l name
    have hslot := goDiv_eq t1 (limitPeriod q).2 hpos hlo hhi1
    rw [tdiv_eq_fdiv t1 _ h0 hpos] at hslot
    exact ⟨_, _, AllowRate_of_slot l t1 name q _ hq.ne' hslot, rfl⟩

/-- A concrete instance of the amended C14: a one-minute period and 2 events per
minute, two clock readings 45 units apart. -/
theorem slot_invariant_witness :
    ((∀ (l : Limiter) (name : String) (maxn n : Int),
        ∃ r l1, l.AllowN 1700000000 name maxn Minute n = some (r, l1) ∧
          l1.redis = (l.incr (allowName name (Int.fdiv 1700000000 (Int.tdiv Minute Second)))
            Minute n).2) ∧
      (Minute = Int.tdiv Minute Second * Second →
        Int.fdiv 1700000000 (Int.tdiv Minute Second) = Int.fdiv (1700000000 * Second) Minute) ∧
      Int.fdiv 1700000000 (Int.tdiv Minute Second) ≤ Int.fdiv 1700000045 (Int.tdiv Minute Second) ∧
      Int.fdiv (1700000000 + Int.tdiv Minute Second) (Int.tdiv Minute Second)
        = Int.fdiv 1700000000 (Int.tdiv Minute Second) + 1) ∧
    ((∀ (l : Limiter) (name : String),
        ∃ r l1, l.AllowRate 1700000000 name (Limit.finite (1 / 30)) = some (r, l1) ∧
          l1.redis = (l.incr (allowRateName name (limitPeriod (1 / 30)).2
            (Int.fdiv 1700000000 (limitPeriod (1 / 30)).2)) (limitPeriod (1 / 30)).2 1).2) ∧
      Int.fdiv 1700000000 (limitPeriod (1 / 30)).2 ≤ Int.fdiv 1700000045 (limitPeriod (1 / 30)).2 ∧
      Int.fdiv (1700000000 + (limitPeriod (1 / 30)).2) (limitPeriod (1 / 30)).2
        = Int.fdiv 1700000000 (limitPeriod (1 / 30)).2 + 1) :=
  slot_invariant Minute 1700000000 1700000045 (1 / 30)
    (by decide) (by norm_num) (by rw [limitPeriod_two_per_minute]; decide)
    (by decide) (by decide) (by decide)

/-! ## ResetRate -/

/-- The result of `ResetRate` for a finite non-zero rate once the slot is known. -/
theorem ResetRate_of_slot (l : Limiter) (now : Int) (name : String) (q : ℚ) (slot : Int)
    (hq : q ≠ 0) (h : goDiv now (limitPeriod q).2 = some slot) :
    l.ResetRate now name (Limit.finite q) =
      some ((l.redis.Del (allowRateName name (limitPeriod q).2 slot)).1,
        { l with redis := (l.redis.Del (allowRateName name (limitPeriod q).2 slot)).2 }) := by
  unfold Limiter.ResetRate
  simp only [hq, if_false, h]

/-- A successful `ResetRate` for a finite non-zero rate: the slot computation
returned, the store is reachable, and the key of the slot is gone. -/
theorem ResetRate_success (l l1 : Limiter) (now : Int) (name : String) (q : ℚ) (hq : q ≠ 0)
    (h : l.ResetRate now name (Limit.finite q) = some (none, l1)) :
    ∃ slot, goDiv now (limitPeriod q).2 = some slot ∧ l1.redis.up = true ∧
      l1.redis.data (allowRateName name (limitPeriod q).2 slot) = none ∧
      l1.Fallback = l.Fallback := by
  rcases hg : goDiv now (limitPeriod q).2 with _ | slot
  · simp [Limiter.ResetRate, hq, hg] at h
  · rw [ResetRate_of_slot l now name q slot hq hg] at h
    simp only [Option.some.injEq, Prod.mk.injEq] at h
    cases hup : l.redis.up
    · simp [Store.Del, hup] at h
    · refine ⟨slot, rfl, ?_, ?_, ?_⟩
      · rw [← h.2]
        simp [Del_up _ _ hup, hup]
      · rw [← h.2]
        simp [Del_up _ _ hup]
      · rw [← h.2]

/-- `AllowRate` on a reachable store whose key of the slot is absent: the count
is 1, so the verdict is `1 ≤ limit`. -/
theorem AllowRate_absent_key (l : Limiter) (now : Int) (name : String) (q : ℚ) (slot : Int)
    (hq : q ≠ 0) (hslot : goDiv now (limitPeriod q).2 = some slot) (hup : l.redis.up = true)
    (habsent : l.redis.data (allowRateName name (limitPeriod q).2 slot) = none) :
    (l.AllowRate now name (Limit.finite q)).map Prod.fst =
      some { delay := if decide ((1 : Int) ≤ (limitPeriod q).1) = true then 0
                else wrap64 (wrap64 (wrap64 (slot + 1) * (limitPeriod q).2) - now),
             allow := decide ((1 : Int) ≤ (limitPeriod q).1) } := by
  rw [AllowRate_of_slot l now name q slot hq hslot]
  simp only [Option.map_some', Limiter.incr, Pipelined_up _ _ _ _ hup, Store.counter, habsent,
    zero_add, if_true]

/-- The limit of every rate below `2⁶³` is at least 1. -/
theorem limit_pos (q : ℚ) (hlt : q < 9223372036854775808) :
    1 ≤ (limitPeriod q).1 := by
  rcases lt_or_le q 1 with h | h
  · rw [limit_of_lt_one q h]
  · exact (limit_of_ge_one q h hlt).2

/-- C18, counterexample. At the finite positive rate `2⁶³` events per second, whose
limit is outside the `int64` range, `ResetRate` succeeds on the empty reachable
store and the `AllowRate` that follows at the same clock reading is denied, with
a positive delay. -/
theorem ResetRate_then_denied :
    (0 : ℚ) < 9223372036854775808 ∧
    ∃ l1, (NewLimiter emptyStore).ResetRate 1700000000123456789 "rate"
        (Limit.finite 9223372036854775808) = some (none, l1) ∧
      (l1.AllowRate 1700000000123456789 "rate" (Limit.finite 9223372036854775808)).map Prod.fst
        = some { delay := 876543211, allow := false } := by
  have hq : (9223372036854775808 : ℚ) ≠ 0 := by norm_num
  have hslot : goDiv 1700000000123456789 (limitPeriod 9223372036854775808).2
      = some 1700000000 := by
    rw [limitPeriod_huge]
    decide
  refine ⟨by norm_num, _, ResetRate_of_slot _ _ "rate" _ 1700000000 hq hslot, ?_⟩
  rw [AllowRate_of_slot _ _ "rate" _ 1700000000 hq hslot]
  simp only [limitPeriod_huge]
  decide

/-- C18, amended. For every name, every finite rate `q > 0` and every store state, a
successful `ResetRate(name, q)` followed by `AllowRate(name, q)` inside the
same window (slot) returns the same (delay, allow) as `AllowRate(name, q)`
issued at the same clock reading against a reachable store that never held a
counter for that name; for every rate below `2⁶³` events per second that result
is `allow = true` and `delay = 0`. -/
theorem ResetRate_round_trip (l l1 fresh : Limiter) (t1 t2 : Int) (name : String) (q : ℚ)
    (hq : 0 < q)
    (hreset : l.ResetRate t1 name (Limit.finite q) = some (none, l1))
    (hwindow : goDiv t1 (limitPeriod q).2 = goDiv t2 (limitPeriod q).2)
    (hup : fresh.redis.up = true)
    (hfresh : ∀ slot, fresh.redis.data (allowRateName name (limitPeriod q).2 slot) = none) :
    ∃ r l2 l3, l1.AllowRate t2 name (Limit.finite q) = some (r, l2) ∧
      fresh.AllowRate t2 name (Limit.finite q) = some (r, l3) ∧
      (q < 9223372036854775808 → r.allow = true ∧ r.delay = 0) := by
  obtain ⟨slot, hslot, hup1, habsent, -⟩ := ResetRate_success l l1 t1 name q hq.ne' hreset
  rw [hwindow] at hslot
  obtain ⟨⟨r, l2⟩, h2, hr⟩ := Option.map_eq_some'.1
    (AllowRate_absent_key l1 t2 name q slot hq.ne' hslot hup1 habsent)
  obtain ⟨⟨r3, l3⟩, h3, hr3⟩ := Option.map_eq_some'.1
    (AllowRate_absent_key fresh t2 name q slot hq.ne' hslot hup (hfresh slot))
  simp only at hr hr3
  refine ⟨r, l2, l3, h2, by rw [h3, hr3, hr], ?_⟩
  intro hlt
  have hlim := limit_pos q hlt
  rw [hr]
  simp [hlim]

/-- A concrete instance of the amended C18: 2 events per minute, the window's
counter at 2, reset and asked again 5 s later. -/
theorem ResetRate_round_trip_witness :
    ∃ r l2 l3,
      Limiter.AllowRate (NewLimiter { up := true, data := fun k =>
          if k = "rate:rate-30000000000-56666667" then none else none })
        1700000015000000000 "rate" (Limit.finite (1 / 30)) = some (r, l2) ∧
      (NewLimiter emptyStore).AllowRate 1700000015000000000 "rate" (Limit.finite (1 / 30))
        = some (r, l3) ∧
      ((1 / 30 : ℚ) < 9223372036854775808 → r.allow = true ∧ r.delay = 0) :=
  ResetRate_round_trip
    (NewLimiter { up := true, data := fun k =>
      if k = "rate:rate-30000000000-56666667" then some { count := 2, ttl := 60000000000 }
      else none })
    (NewLimiter { up := true, data := fun k =>
      if k = "rate:rate-30000000000-56666667" then none else none })
    (NewLimiter emptyStore) 1700000010000000000 1700000015000000000 "rate" (1 / 30)
    (by norm_num)
    (by
      have hq : (1 / 30 : ℚ) ≠ 0 := by norm_num
      rw [ResetRate_of_slot _ _ "rate" _ 56666667 hq (by rw [limitPeriod_two_per_minute]; decide)]
      simp only [limitPeriod_two_per_minute]
      have hkey : allowRateName "rate" 30000000000 56666667 = "rate:rate-30000000000-56666667" := by
        decide
      rw [Del_up _ _ rfl, hkey]
      simp only [NewLimiter, Option.some.injEq, Prod.mk.injEq, true_and]
      congr 2
      funext k
      by_cases hk : k = "rate:rate-30000000000-56666667" <;> simp [hk])
    (by rw [limitPeriod_two_per_minute]; decide) rfl (fun _ => rfl)

/-! ## Expiry -/

/-- The expiry `incr` asks for is `period + 30 s` when that sum is an `int64`. -/
theorem ttl_value (period : Int) (hlo : minInt64 ≤ period)
    (hfit : period + 30 * Second ≤ maxInt64) :
    wrap64 (period + wrap64 (30 * Second)) = period + 30 * Second := by
  have h30 : wrap64 (30 * Second) = 30 * Second := by decide
  rw [h30]
  apply wrap64_of_range _ hfit
  unfold minInt64 at *
  unfold Second
  omega

/-- A successful `incr` writes the record of its key, count and expiry together,
and touches no other record. -/
theorem incr_up_data (l : Limiter) (key : String) (period n : Int) (hup : l.redis.up = true) :
    (l.incr key period n).2.data key =
      some { count := l.redis.counter key + n, ttl := wrap64 (period + wrap64 (30 * Second)) } ∧
    ∀ k, (l.incr key period n).2.data k ≠ l.redis.data k → k = key := by
  unfold Limiter.incr
  rw [Pipelined_up _ _ _ _ hup]
  refine ⟨by simp, ?_⟩
  intro k hk
  by_contra hne
  exact hk (by simp [hne])

/-- C19, counterexample. (a) `AllowN` with the period of `2⁶³ - 1` ns, the largest
`time.Duration`: the increment succeeds and leaves the key with the expiry
`period + 30 s` wrapped to a negative duration, not `period + 30 s`. (b) The
same for `AllowRate` at one event per 9223372036 s. -/
theorem expiry_wraps_for_long_periods :
    (Second ≤ 9223372036854775807 ∧
      ∃ r l1, (NewLimiter emptyStore).AllowN 1700000000 "test_id" 1 9223372036854775807 1
          = some (r, l1) ∧ r.count = 1 ∧
        l1.redis.data (allowName "test_id" 0)
          = some { count := 1, ttl := -9223372006854775809 } ∧
        (-9223372006854775809 : Int) ≠ 9223372036854775807 + 30 * Second) ∧
    (limitPeriod (1 / 9223372036) = (1, 9223372036000000000) ∧
      ∃ r l1, (NewLimiter emptyStore).AllowRate 1700000000123456789 "rate"
          (Limit.finite (1 / 9223372036)) = some (r, l1) ∧ r.allow = true ∧
        l1.redis.data (allowRateName "rate" 9223372036000000000 0)
          = some { count := 1, ttl := -9223372007709551616 } ∧
        (-9223372007709551616 : Int) ≠ 9223372036000000000 + 30 * Second) := by
  have hlp : limitPeriod (1 / 9223372036) = (1, 9223372036000000000) := by
    rw [limitPeriod_of_quotient (1 / 9223372036) 9223372036 33 (9223372036 * 2 ^ 19)
      (by norm_num) (by norm_num) (by norm_num) (by norm_num) (by norm_num) (by norm_num)
      (by norm_num)]
    norm_num [int64OfRat, minInt64, maxInt64, wrap64, Second]
  have hq : (1 / 9223372036 : ℚ) ≠ 0 := by norm_num
  refine ⟨⟨by decide, _, _,
    AllowN_of_slot _ 1700000000 "test_id" 1 9223372036854775807 1 0 (by decide),
    by decide, by decide, by decide⟩, hlp, _, _,
    AllowRate_of_slot _ 1700000000123456789 "rate" _ 0 hq (by rw [hlp]; decide), ?_, ?_,
    by decide⟩
  · simp only [hlp]
    decide
  · simp only [hlp]
    decide

/-- C19, amended. Every successful increment issued by
`AllowN(name, maxn, period, n)`, for a period of at least one second with
`period + 30 s` within the 64-bit duration, leaves the incremented key with the
expiry `period + 30 s`, the caller's full period; every successful increment
issued by `AllowRate`, for a rate whose normalized period is at least one second
with `period + 30 s` within the 64-bit duration, leaves its key with the expiry
`period + 30 s` of the normalized period. Every record either call changes
carries that expiry. -/
theorem expiry_refresh (l : Limiter) (t : Int) (name : String) (maxn period n : Int) (q : ℚ)
    (hperiod : Second ≤ period) (hfit : period + 30 * Second ≤ maxInt64)
    (hq : 0 < q) (hnorm : Second ≤ (limitPeriod q).2)
    (hnfit : (limitPeriod q).2 + 30 * Second ≤ maxInt64)
    (hlo : minInt64 ≤ t) (hhi : t ≤ maxInt64) (hup : l.redis.up = true) :
    (∃ r l1, l.AllowN t name maxn period n = some (r, l1) ∧
      l1.redis.data (allowName name (Int.tdiv t (Int.tdiv period Second))) =
        some { count := r.count, ttl := period + 30 * Second } ∧
      ∀ k, l1.redis.data k ≠ l.redis.data k →
        ∃ e, l1.redis.data k = some e ∧ e.ttl = period + 30 * Second) ∧
    (∃ r l1, l.AllowRate t name (Limit.finite q) = some (r, l1) ∧
      (∃ c, l1.redis.data (allowRateName name (limitPeriod q).2 (Int.tdiv t (limitPeriod q).2)) =
        some { count := c, ttl := (limitPeriod q).2 + 30 * Second }) ∧
      ∀ k, l1.redis.data k ≠ l.redis.data k →
        ∃ e, l1.redis.data k = some e ∧ e.ttl = (limitPeriod q).2 + 30 * Second) := by
  have hS : (0 : Int) < Second := by decide
  have hsecs := secs_pos period hperiod
  have hpos : 0 < (limitPeriod q).2 := lt_of_lt_of_le hS hnorm
  have httl1 := ttl_value period (by unfold minInt64; omega) hfit
  have httl2 := ttl_value (limitPeriod q).2 (by unfold minInt64; omega) hnfit
  constructor
  · have hslot := goDiv_eq t (Int.tdiv period Second) (by omega) hlo hhi
    obtain ⟨hkey, hothers⟩ := incr_up_data l
      (allowName name (Int.tdiv t (Int.tdiv period Second))) period n hup
    rw [httl1] at hkey
    refine ⟨_, _, AllowN_of_slot l t name maxn period n _ hslot, ?_, ?_⟩
    · rw [hkey]
      simp [Limiter.incr, Pipelined_up _ _ _ _ hup]
    · intro k hk
      have := hothers k hk
      subst this
      exact ⟨_, hkey, rfl⟩
  · have hslot := goDiv_eq t (limitPeriod q).2 hpos hlo hhi
    obtain ⟨hkey, hothers⟩ := incr_up_data l
      (allowRateName name (limitPeriod q).2 (Int.tdiv t (limitPeriod q).2)) (limitPeriod q).2 1 hup
    rw [httl2] at hkey
    refine ⟨_, _, AllowRate_of_slot l t name q _ hq.ne' hslot, ⟨_, hkey⟩, ?_⟩
    intro k hk
    have := hothers k hk
    subst this
    exact ⟨_, hkey, rfl⟩

/-- A concrete instance of the amended C19: a one-minute period (expiry 90 s) and
2 events per minute (expiry 60 s). -/
theorem expiry_refresh_witness :
    (∃ r l1, (NewLimiter emptyStore).AllowN 1700000000 "test_id" 1 Minute 1 = some (r, l1) ∧
      l1.redis.data (allowName "test_id" (Int.tdiv 1700000000 (Int.tdiv Minute Second))) =
        some { count := r.count, ttl := Minute + 30 * Second } ∧
      ∀ k, l1.redis.data k ≠ (NewLimiter emptyStore).redis.data k →
        ∃ e, l1.redis.data k = some e ∧ e.ttl = Minute + 30 * Second) ∧
    (∃ r l1, (NewLimiter emptyStore).AllowRate 1700000000 "test_id" (Limit.finite (1 / 30))
        = some (r, l1) ∧
      (∃ c, l1.redis.data (allowRateName "test_id" (limitPeriod (1 / 30)).2
          (Int.tdiv 1700000000 (limitPeriod (1 / 30)).2)) =
        some { count := c, ttl := (limitPeriod (1 / 30)).2 + 30 * Second }) ∧
      ∀ k, l1.redis.data k ≠ (NewLimiter emptyStore).redis.data k →
        ∃ e, l1.redis.data k = some e ∧ e.ttl = (limitPeriod (1 / 30)).2 + 30 * Second) :=
  expiry_refresh (NewLimiter emptyStore) 1700000000 "test_id" 1 Minute 1 (1 / 30)
    (by decide) (by decide) (by norm_num) (by rw [limitPeriod_two_per_minute]; decide)
    (by rw [limitPeriod_two_per_minute]; decide) (by decide) (by decide) rfl

/-! ## Key derivation -/

/-- Two lists cut at a separator that occurs in neither tail are cut at the same
place. -/
theorem split_at_last (c : Char) :
    ∀ (x x' y y' : List Char), c ∉ y → c ∉ y' → x ++ c :: y = x' ++ c :: y' → x = x' ∧ y = y' := by
  intro x
  induction x with
  | nil =>
    intro x' y y' hy hy' h
    cases x' with
    | nil =>
      simp only [List.nil_append, List.cons.injEq, true_and] at h
      exact ⟨rfl, h⟩
    | cons d x'' =>
      simp only [List.nil_append, List.cons_append, List.cons.injEq] at h
      exact absurd (by rw [h.2]; simp) hy
  | cons a xs ih =>
    intro x' y y' hy hy' h
    cases x' with
    | nil =>
      simp only [List.nil_append, List.cons_append, List.cons.injEq] at h
      exact absurd (by rw [← h.2]; simp) hy'
    | cons d x'' =>
      simp only [List.cons_append, List.cons.injEq] at h
      obtain ⟨h1, h2⟩ := ih x'' y y' hy hy' h.2
      exact ⟨by rw [h.1, h1], h2⟩

theorem digitChar_props (k : Nat) (hk : k < 10) :
    Nat.digitChar k ≠ '-' ∧ (Nat.digitChar k).toNat - 48 = k := by
  interval_cases k <;> exact ⟨by decide, by decide⟩

theorem toDigitsCore_chars (fuel : Nat) :
    ∀ (n : Nat) (ds : List Char) (c : Char), c ∈ Nat.toDigitsCore 10 fuel n ds →
      c ∈ ds ∨ c ≠ '-' := by
  induction fuel with
  | zero =>
    intro n ds c h
    exact Or.inl h
  | succ fuel ih =>
    intro n ds c h
    have hd := (digitChar_props (n % 10) (Nat.mod_lt n (by decide))).1
    simp only [Nat.toDigitsCore] at h
    split at h
    · rcases List.mem_cons.1 h with h | h
      · exact Or.inr (h ▸ hd)
      · exact Or.inl h
    · rcases ih _ _ c h with h | h
      · rcases List.mem_cons.1 h with h | h
        · exact Or.inr (h ▸ hd)
        · exact Or.inl h
      · exact Or.inr h

/-- The decimal rendering of a natural number has no hyphen. -/
theorem toDigits_no_hyphen (n : Nat) : '-' ∉ Nat.toDigits 10 n := by
  intro h
  rcases toDigitsCore_chars _ _ _ _ h with h | h
  · simp at h
  · exact h rfl

theorem toDigitsCore_value (fuel : Nat) :
    ∀ (n : Nat) (ds : List Char), n < fuel →
      (Nat.toDigitsCore 10 fuel n ds).foldl (fun acc c => 10 * acc + (c.toNat - 48)) 0
        = ds.foldl (fun acc c => 10 * acc + (c.toNat - 48)) n := by
  induction fuel with
  | zero =>
    intro n ds h
    omega
  | succ fuel ih =>
    intro n ds h
    have hd := (digitChar_props (n % 10) (Nat.mod_lt n (by decide))).2
    simp only [Nat.toDigitsCore]
    split
    · rename_i h0
      simp only [List.foldl_cons, Nat.mul_zero, Nat.zero_add, hd]
      congr 1
      omega
    · rename_i h0
      rw [ih (n / 10) _ (by omega)]
      simp only [List.foldl_cons, hd]
      congr 1
      omega

/-- The decimal rendering of a natural number denotes that number. -/
theorem decimalValue_toDigits (n : Nat) : decimalValue (Nat.toDigits 10 n) = n := by
  unfold decimalValue Nat.toDigits
  rw [toDigitsCore_value (n + 1) n [] (by omega)]
  rfl

theorem toString_nat_data (n : Nat) : (toString ((n : Nat) : Int)).data = Nat.toDigits 10 n := rfl

theorem allowName_data (n : String) (s : Int) :
    (allowName n s).data = ("rate:".data ++ n.data) ++ '-' :: (toString s).data := by
  simp [allowName, redisPrefix, String.data_append]

theorem allowRateName_data (n : String) (p s : Int) :
    (allowRateName n p s).data =
      (("rate:".data ++ n.data) ++ '-' :: (toString p).data) ++ '-' :: (toString s).data := by
  simp [allowRateName, redisPrefix, String.data_append]

theorem toString_int_inj (a b : Int) (ha : 0 ≤ a) (hb : 0 ≤ b)
    (h : (toString a).data = (toString b).data) : a = b := by
  obtain ⟨m, rfl⟩ := Int.eq_ofNat_of_zero_le ha
  obtain ⟨k, rfl⟩ := Int.eq_ofNat_of_zero_le hb
  rw [toString_nat_data, toString_nat_data] at h
  have := congrArg decimalValue h
  rw [decimalValue_toDigits, decimalValue_toDigits] at this
  rw [this]

theorem toString_int_no_hyphen (a : Int) (ha : 0 ≤ a) : '-' ∉ (toString a).data := by
  obtain ⟨m, rfl⟩ := Int.eq_ofNat_of_zero_le ha
  rw [toString_nat_data]
  exact toDigits_no_hyphen m

theorem allowName_inj (n1 n2 : String) (s1 s2 : Int) (hs1 : 0 ≤ s1) (hs2 : 0 ≤ s2)
    (h : allowName n1 s1 = allowName n2 s2) : n1 = n2 ∧ s1 = s2 := by
  have hd := congrArg String.data h
  rw [allowName_data, allowName_data] at hd
  obtain ⟨h1, h2⟩ := split_at_last '-' _ _ _ _ (toString_int_no_hyphen s1 hs1)
    (toString_int_no_hyphen s2 hs2) hd
  exact ⟨String.ext (List.append_cancel_left h1), toString_int_inj s1 s2 hs1 hs2 h2⟩

theorem allowRateName_inj (n1 n2 : String) (p1 p2 s1 s2 : Int) (hp1 : 0 ≤ p1) (hp2 : 0 ≤ p2)
    (hs1 : 0 ≤ s1) (hs2 : 0 ≤ s2)
    (h : allowRateName n1 p1 s1 = allowRateName n2 p2 s2) : n1 = n2 ∧ p1 = p2 ∧ s1 = s2 := by
  have hd := congrArg String.data h
  rw [allowRateName_data, allowRateName_data] at hd
  obtain ⟨h1, h2⟩ := split_at_last '-' _ _ _ _ (toString_int_no_hyphen s1 hs1)
    (toString_int_no_hyphen s2 hs2) hd
  obtain ⟨h3, h4⟩ := split_at_last '-' _ _ _ _ (toString_int_no_hyphen p1 hp1)
    (toString_int_no_hyphen p2 hp2) h1
  exact ⟨String.ext (List.append_cancel_left h3), toString_int_inj p1 p2 hp1 hp2 h4,
    toString_int_inj s1 s2 hs1 hs2 h2⟩

/-- A fixed-quota key is a continuous-rate key exactly when its name is the other
name followed by a hyphen and the period, and the slots agree. -/
theorem cross_mode_iff (n1 n2 : String) (p s1 s2 : Int) (hs1 : 0 ≤ s1) (hs2 : 0 ≤ s2) :
    allowName n1 s1 = allowRateName n2 p s2 ↔ n1 = n2 ++ "-" ++ toString p ∧ s1 = s2 := by
  constructor
  · intro h
    have hd := congrArg String.data h
    rw [allowName_data, allowRateName_data] at hd
    obtain ⟨h1, h2⟩ := split_at_last '-' _ _ _ _ (toString_int_no_hyphen s1 hs1)
      (toString_int_no_hyphen s2 hs2) hd
    refine ⟨String.ext ?_, toString_int_inj s1 s2 hs1 hs2 h2⟩
    rw [List.append_assoc] at h1
    have := List.append_cancel_left h1
    simp [String.data_append, this]
  · rintro ⟨rfl, rfl⟩
    apply String.ext
    rw [allowName_data, allowRateName_data]
    simp [String.data_append]

/-- C15. Key derivation is deterministic and collision-free inside a mode. The
fixed-quota key is `rate:<name>-<slot>` and the continuous-rate key
`rate:<name>-<period_ns>-<slot>`, the integers in decimal; for all names,
non-negative slots and positive periods, two fixed-quota keys are equal only
for equal names and slots, and two continuous-rate keys only for equal names,
periods and slots. -/
theorem key_derivation_injective (n1 n2 : String) (s1 s2 p1 p2 : Int)
    (hs1 : 0 ≤ s1) (hs2 : 0 ≤ s2) (hp1 : 0 < p1) (hp2 : 0 < p2) :
    allowName n1 s1 = "rate:" ++ n1 ++ "-" ++ toString s1 ∧
    allowRateName n1 p1 s1 = "rate:" ++ n1 ++ "-" ++ toString p1 ++ "-" ++ toString s1 ∧
    (decimalValue (toString s1).data = s1.toNat ∧ decimalValue (toString p1).data = p1.toNat) ∧
    (allowName n1 s1 = allowName n2 s2 ↔ n1 = n2 ∧ s1 = s2) ∧
    (allowRateName n1 p1 s1 = allowRateName n2 p2 s2 ↔ n1 = n2 ∧ p1 = p2 ∧ s1 = s2) := by
  have hval : ∀ a : Int, 0 ≤ a → decimalValue (toString a).data = a.toNat := by
    intro a ha
    obtain ⟨m, rfl⟩ := Int.eq_ofNat_of_zero_le ha
    rw [toString_nat_data, decimalValue_toDigits]
    rfl
  refine ⟨rfl, rfl, ⟨hval s1 hs1, hval p1 hp1.le⟩, ⟨allowName_inj n1 n2 s1 s2 hs1 hs2, ?_⟩,
    ⟨allowRateName_inj n1 n2 p1 p2 s1 s2 hp1.le hp2.le hs1 hs2, ?_⟩⟩
  · rintro ⟨rfl, rfl⟩
    rfl
  · rintro ⟨rfl, rfl, rfl⟩
    rfl

/-- A concrete instance of C15: names with hyphens and digits, slots 7 and 17. -/
theorem key_derivation_injective_witness :
    allowName "a-1" 7 = "rate:" ++ "a-1" ++ "-" ++ toString (7 : Int) ∧
    allowRateName "a-1" 1000000000 7
      = "rate:" ++ "a-1" ++ "-" ++ toString (1000000000 : Int) ++ "-" ++ toString (7 : Int) ∧
    (decimalValue (toString (7 : Int)).data = (7 : Int).toNat ∧
      decimalValue (toString (1000000000 : Int)).data = (1000000000 : Int).toNat) ∧
    (allowName "a-1" 7 = allowName "a" 17 ↔ "a-1" = "a" ∧ (7 : Int) = 17) ∧
    (allowRateName "a-1" 1000000000 7 = allowRateName "a" 30000000000 17 ↔
      "a-1" = "a" ∧ (1000000000 : Int) = 30000000000 ∧ (7 : Int) = 17) :=
  key_derivation_injective "a-1" "a" 7 17 1000000000 30000000000
    (by decide) (by decide) (by decide) (by decide)

/-- C16, counterexample. The fixed-quota key of the name `x-1000000000` in slot
1700000000 is the continuous-rate key of the name `x`, period 1 s, in the same
slot. One `AllowN` call on the first name with a one-second period increments
that key, and the first `AllowRate` call on `x` at 1 event per second, in the
same second, then counts 2 and is denied, where on the empty store it is
allowed. -/
theorem modes_share_a_key :
    allowName "x-1000000000" 1700000000 = allowRateName "x" 1000000000 1700000000 ∧
    ∃ r1 l1, (NewLimiter emptyStore).AllowN 1700000000 "x-1000000000" 5 Second 1
        = some (r1, l1) ∧ r1.count = 1 ∧
      (l1.AllowRate 1700000000500000000 "x" (Limit.finite 1)).map Prod.fst
        = some { delay := 500000000, allow := false } ∧
      ((NewLimiter emptyStore).AllowRate 1700000000500000000 "x" (Limit.finite 1)).map Prod.fst
        = some { delay := 0, allow := true } := by
  have hq : (1 : ℚ) ≠ 0 := by norm_num
  have hslot : goDiv 1700000000500000000 (limitPeriod 1).2 = some 1700000000 := by
    rw [limitPeriod_one]
    decide
  refine ⟨by decide, _, _,
    AllowN_of_slot _ 1700000000 "x-1000000000" 5 Second 1 1700000000 (by decide),
    by decide, ?_, ?_⟩
  · rw [AllowRate_of_slot _ _ "x" 1 1700000000 hq hslot]
    simp only [limitPeriod_one]
    decide
  · rw [AllowRate_of_slot _ _ "x" 1 1700000000 hq hslot]
    simp only [limitPeriod_one]
    decide

/-- C16, amended. For all names `n1`, `n2`, non-negative slots `s1`, `s2` and every
period `p`, the fixed-quota key `allowName n1 s1` is the continuous-rate key
`allowRateName n2 p s2` exactly when `s1 = s2` and `n1` is `n2` followed by a
hyphen and the decimal period; so the two modes share no key when the
fixed-quota name has no hyphen. -/
theorem modes_share_key_iff (n1 n2 : String) (p s1 s2 : Int) (hs1 : 0 ≤ s1) (hs2 : 0 ≤ s2) :
    (allowName n1 s1 = allowRateName n2 p s2 ↔ n1 = n2 ++ "-" ++ toString p ∧ s1 = s2) ∧
    ('-' ∉ n1.data → allowName n1 s1 ≠ allowRateName n2 p s2) := by
  refine ⟨cross_mode_iff n1 n2 p s1 s2 hs1 hs2, ?_⟩
  intro hno h
  have hn := ((cross_mode_iff n1 n2 p s1 s2 hs1 hs2).1 h).1
  apply hno
  rw [hn]
  simp [String.data_append]

/-- A concrete instance of the amended C16: the names of the tests. -/
theorem modes_share_key_iff_witness :
    (allowName "test_id" 28333333 = allowRateName "rate" 1000000000 1700000000 ↔
      "test_id" = "rate" ++ "-" ++ toString (1000000000 : Int) ∧ (28333333 : Int) = 1700000000) ∧
    ('-' ∉ "test_id".data →
      allowName "test_id" 28333333 ≠ allowRateName "rate" 1000000000 1700000000) :=
  modes_share_key_iff "test_id" "rate" 1000000000 28333333 1700000000 (by decide) (by decide)

end RedisRate
